import Mathlib

/-!
Verification development for the pytokens Python tokenizer
(`src/pytokens/__init__.py`).

The tokenizer is embedded shallowly: the Python source string becomes a
`List Char` (Python strings are sequences of code points and the scanner
indexes them by code point), the mutable `TokenIterator` object becomes a
state record threaded explicitly, and fallible Python operations are
modelled in `Except Failure`.  Python's unchecked `s[i]` indexing is
`pyGet` (raising `Failure.indexError` out of bounds), `assert` becomes
`Failure.assertionError`, and each typed exception of the module gets its
own `Failure` constructor.  `while` loops are modelled by fuel-based
structural recursion; the fuel passed at every call site
(`innerFuel`, one more than the number of remaining characters) exceeds
the number of iterations any of these loops can perform, since every
iteration advances the cursor.  Python lists used as stacks are modelled
as Lean lists with the top of the stack at the head.
-/

set_option maxRecDepth 8000

namespace Pytok

/-- Characters of the decoded Python source string. -/
abbrev Source := List Char

/-- Failure taxonomy of the tokenizer: the typed exceptions declared in the
module, plus `indexError` (Python `IndexError` from unchecked indexing or
popping an empty list), `assertionError` (a failed `assert`), and `fuelOut`,
the artifact of fuel-based recursion (never produced when enough fuel is
supplied).  `NotAnIndent` is not here: it is always caught inside
`__next__` and is modelled by an `Option` result of `indentScan`. -/
inductive Failure where
  | underflow
  | inconsistentUseOfTabsAndSpaces
  | dedentDoesNotMatchAnyOuterIndent
  | unterminatedString
  | unexpectedEOF
  | unexpectedCharacterAfterBackslash
  | unexpectedCharacter
  | indexError
  | assertionError
  | fuelOut
deriving DecidableEq, Repr

/-- The `TokenType` enumeration of the module.  The `_op_start` / `_op_end`
markers are omitted (they only support `is_operator`); note that the
enumeration in the source has no `tstring_start` / `tstring_middle` /
`tstring_end` members. -/
inductive TokenType where
  | whitespace
  | indent
  | dedent
  | newline
  | nl
  | comment
  | semicolon
  | lparen
  | rparen
  | lbracket
  | rbracket
  | lbrace
  | rbrace
  | colon
  | op
  | identifier
  | number
  | string
  | fstring_start
  | fstring_middle
  | fstring_end
  | endmarker
deriving DecidableEq, Repr

/-- The `Token` dataclass: a kind plus code-point offsets and line/column
positions (lines 1-indexed, columns 0-indexed). -/
structure Token where
  type : TokenType
  start_index : Nat
  end_index : Nat
  start_line : Nat
  start_col : Nat
  end_line : Nat
  end_col : Nat
deriving DecidableEq, Repr

/-- The six values of the f-string sub-state machine (`FStringState.State`). -/
inductive FSState where
  | not_fstring
  | at_fstring_middle
  | at_fstring_lbrace
  | in_fstring_expr
  | in_fstring_expr_modifier
  | at_fstring_end
deriving DecidableEq, Repr

/-- The mutable state of the `TokenIterator` object.  The `FStringState`
helper object is flattened into the fields `fstring_state` (its `state`)
and `fstring_state_stack` (its `stack`).  All Python list stacks have
their top at the head here. -/
structure TokenIterator where
  source : Source
  current_index : Nat := 0
  prev_index : Nat := 0
  line_number : Nat := 1
  prev_line_number : Nat := 1
  byte_offset : Nat := 0
  prev_byte_offset : Nat := 0
  all_whitespace_on_this_line : Bool := true
  bracket_level : Nat := 0
  bracket_level_stack : List Nat := []
  prev_token : Option Token := none
  indent_stack : List Source := []
  dedent_counter : Nat := 0
  fstring_state : FSState := .not_fstring
  fstring_state_stack : List FSState := []
  fstring_quote_stack : List Source := []
  fstring_quote : Option Source := none
deriving DecidableEq, Repr

/-- Default character used by guarded reads (never observable: every `getD`
in this development is behind a bounds check mirroring one in the source). -/
def dChar : Char := Char.ofNat 0

/-- The single-quote character (code point 39). -/
def sqChar : Char := Char.ofNat 39

/-- The backtick character (code point 96). -/
def btChar : Char := Char.ofNat 96

/-- Python's unchecked `source[i]`: `IndexError` out of bounds.  (The
scanner never produces a negative index at the spots modelled with this.) -/
def pyGet (s : Source) (i : Nat) : Except Failure Char :=
  match s.get? i with
  | some c => .ok c
  | none => .error .indexError

/-- Python's slice `source[a:b]` for `a ≤ b`, with the usual clamping. -/
def pySlice (s : Source) (a b : Nat) : Source :=
  (s.drop a).take (b - a)

/-- Python's substring test `needle in whole` for strings. -/
def pyIn (needle whole : Source) : Bool :=
  (List.range (whole.length + 1)).any fun i => needle.isPrefixOf (whole.drop i)

/-- The module-level `is_whitespace` helper (space, tab, VT, FF). -/
def is_whitespace (c : Char) : Bool :=
  c = ' ' || c = '\t' || c = '\x0b' || c = '\x0c'

/-- ASCII fragment of Python's `str.isdigit`. -/
def pyIsDigit (c : Char) : Bool := c.isDigit

/-- Membership in Python's `string.hexdigits`. -/
def pyIsHexdigit (c : Char) : Bool :=
  c.isDigit || ('a' ≤ c && c ≤ 'f') || ('A' ≤ c && c ≤ 'F')

/-- ASCII identifier-start character. -/
def isIdentStart (c : Char) : Bool := c.isAlpha || c = '_'

/-- ASCII identifier-continuation character. -/
def isIdentCont (c : Char) : Bool := c.isAlphanum || c = '_'

/-- Python's `str.isidentifier`, modelled on its ASCII fragment (the source
delegates to the host `str.isidentifier`; the full Unicode XID tables are
out of scope and none of the properties below depends on which characters
count as identifier characters). -/
def pyIsidentifier (s : Source) : Bool :=
  match s with
  | [] => false
  | c :: rest => isIdentStart c && rest.all isIdentCont

namespace TokenIterator

/-- `TokenIterator.is_in_bounds`. -/
def is_in_bounds (st : TokenIterator) : Bool :=
  st.current_index < st.source.length

/-- Guarded read of the current character (used only where the source has
already established the index is in bounds). -/
def charAtD (st : TokenIterator) : Char :=
  st.source.getD st.current_index dChar

/-- Guarded read at an arbitrary index. -/
def charAt1 (st : TokenIterator) (i : Nat) : Char :=
  st.source.getD i dChar

/-- `TokenIterator.peek` (asserts the index is in bounds). -/
def peek (st : TokenIterator) : Except Failure Char :=
  if st.is_in_bounds then pyGet st.source st.current_index
  else .error .assertionError

/-- `TokenIterator.peek_next` (asserts `current_index + 1` is in bounds). -/
def peek_next (st : TokenIterator) : Except Failure Char :=
  if st.current_index + 1 < st.source.length then pyGet st.source (st.current_index + 1)
  else .error .assertionError

/-- `TokenIterator.advance`. -/
def advance (st : TokenIterator) : TokenIterator :=
  { st with current_index := st.current_index + 1, byte_offset := st.byte_offset + 1 }

/-- `TokenIterator.advance_by`. -/
def advance_by (st : TokenIterator) (count : Nat) : TokenIterator :=
  { st with current_index := st.current_index + count, byte_offset := st.byte_offset + count }

/-- `TokenIterator.next_line`. -/
def next_line (st : TokenIterator) : TokenIterator :=
  { st with line_number := st.line_number + 1, byte_offset := 0,
            all_whitespace_on_this_line := true }

/-- `TokenIterator.advance_check_newline` (the read of
`source[current_index]` is unchecked in the source). -/
def advance_check_newline (st : TokenIterator) : Except Failure TokenIterator := do
  let c ← pyGet st.source st.current_index
  if c = '\n' then
    .ok (next_line { st with current_index := st.current_index + 1 })
  else
    .ok st.advance

/-- One option of `TokenIterator.match`: skipped when it does not fit in
the remaining source, otherwise compared (case-insensitively when asked)
against the snippet at the cursor. -/
def matchOne (st : TokenIterator) (option : Source) (ignore_case : Bool) : Bool :=
  if st.current_index + option.length ≤ st.source.length then
    let snippet := pySlice st.source st.current_index (st.current_index + option.length)
    if ignore_case then option.map Char.toLower = snippet.map Char.toLower
    else option = snippet
  else false

/-- `TokenIterator.match` over several options. -/
def matchOpts (st : TokenIterator) (options : List Source) (ignore_case : Bool) : Bool :=
  options.any fun option => matchOne st option ignore_case

/-- `TokenIterator.make_token`: builds the token from the previous and
current positions, performs the per-kind state update, and records the
token boundary in the `prev_*` fields. -/
def make_token (st : TokenIterator) (tok_type : TokenType) : Token × TokenIterator :=
  let token : Token :=
    { type := tok_type
      start_index := st.prev_index
      end_index := st.current_index
      start_line := st.prev_line_number
      start_col := st.prev_byte_offset
      end_line := st.line_number
      end_col := st.byte_offset }
  let st :=
    if tok_type = .newline ∨ tok_type = .nl then st.next_line
    else if tok_type = .whitespace ∨ tok_type = .comment then st
    else { st with all_whitespace_on_this_line := false }
  (token, { st with prev_token := some token, prev_index := st.current_index,
                    prev_line_number := st.line_number,
                    prev_byte_offset := st.byte_offset })

/-- `FStringState.enter_fstring`. -/
def enter_fstring (st : TokenIterator) : TokenIterator :=
  { st with fstring_state := .at_fstring_middle,
            fstring_state_stack := st.fstring_state :: st.fstring_state_stack }

/-- `FStringState.leave_fstring` (assert, then pop — popping an empty
Python list raises `IndexError`). -/
def leave_fstring (st : TokenIterator) : Except Failure TokenIterator :=
  if st.fstring_state = .at_fstring_end then
    match st.fstring_state_stack with
    | [] => .error .indexError
    | s :: rest => .ok { st with fstring_state := s, fstring_state_stack := rest }
  else .error .assertionError

/-- `FStringState.consume_fstring_middle_for_lbrace`. -/
def consume_fstring_middle_for_lbrace (st : TokenIterator) : TokenIterator :=
  let stk :=
    if st.fstring_state = .in_fstring_expr_modifier then st.fstring_state :: st.fstring_state_stack
    else st.fstring_state_stack
  { st with fstring_state := .at_fstring_lbrace, fstring_state_stack := stk }

/-- `FStringState.consume_fstring_middle_for_end`. -/
def consume_fstring_middle_for_end (st : TokenIterator) : TokenIterator :=
  { st with fstring_state := .at_fstring_end }

/-- `FStringState.consume_lbrace`. -/
def consume_lbrace (st : TokenIterator) : TokenIterator :=
  { st with fstring_state := .in_fstring_expr }

/-- `FStringState.consume_rbrace`. -/
def consume_rbrace (st : TokenIterator) : Except Failure TokenIterator :=
  if st.fstring_state = .in_fstring_expr ∨ st.fstring_state = .in_fstring_expr_modifier then
    match st.fstring_state_stack with
    | top :: rest =>
      if top = .in_fstring_expr_modifier then
        .ok { st with fstring_state := top, fstring_state_stack := rest }
      else .ok { st with fstring_state := .at_fstring_middle }
    | [] => .ok { st with fstring_state := .at_fstring_middle }
  else .error .assertionError

/-- `TokenIterator.push_fstring_quote`. -/
def push_fstring_quote (st : TokenIterator) (quote : Source) : TokenIterator :=
  let stk :=
    match st.fstring_quote with
    | some fq => fq :: st.fstring_quote_stack
    | none => st.fstring_quote_stack
  { st with fstring_quote := some quote, fstring_quote_stack := stk }

/-- `TokenIterator.pop_fstring_quote` (raises `Underflow` when no quote is
active). -/
def pop_fstring_quote (st : TokenIterator) : Except Failure TokenIterator :=
  match st.fstring_quote with
  | none => .error .underflow
  | some _ =>
    match st.fstring_quote_stack with
    | [] => .ok { st with fstring_quote := none }
    | q :: rest => .ok { st with fstring_quote := some q, fstring_quote_stack := rest }

/-- Fuel passed to every inner loop: strictly more than the number of
iterations any of the scanning loops can make (each iteration advances the
cursor by at least one). -/
def innerFuel (st : TokenIterator) : Nat := st.source.length + 2

end TokenIterator

open TokenIterator

/-- Generic `while cond: advance()` loop (the shape of the digit runs, the
whitespace run and the comment run in the source). -/
def scanWhile (cond : TokenIterator → Except Failure Bool) :
    Nat → TokenIterator → Except Failure TokenIterator
  | 0, _ => .error .fuelOut
  | fuel + 1, st => do
    let b ← cond st
    if b then scanWhile cond fuel st.advance else .ok st

/-- Scan phase of `TokenIterator.newline` (the trailing `make_token` is
applied by the top-level step). -/
def newlineScan (st : TokenIterator) : TokenType × TokenIterator :=
  let st := if st.is_in_bounds && st.charAtD = '\r' then st.advance else st
  let st := st.advance
  let in_brackets := 0 < st.bracket_level
  let tok_type :=
    if in_brackets ∨ st.fstring_state = .in_fstring_expr ∨ st.all_whitespace_on_this_line then
      TokenType.nl
    else TokenType.newline
  (tok_type, st)

/-- Scan phase of `TokenIterator.endmarker`: pop one indent level into a
DEDENT, or produce the ENDMARKER once the stack is empty. -/
def endmarkerScan (st : TokenIterator) : TokenType × TokenIterator :=
  match st.indent_stack with
  | _ :: rest => (.dedent, { st with indent_stack := rest })
  | [] => (.endmarker, st)

/-- Loop condition of the two scanning loops in `TokenIterator.binary`.
The source's condition is `self.is_in_bounds() and self.source[i] == "0"
or self.source[i] == "1"`, in which `and` binds tighter than `or`: when
the first disjunct is false the second indexes the source unchecked, so at
end of source it raises `IndexError`. -/
def binaryCond (st : TokenIterator) : Except Failure Bool := do
  if st.is_in_bounds && st.charAtD = '0' then
    pure true
  else do
    let c ← pyGet st.source st.current_index
    pure (c = '1')

/-- `TokenIterator.binary`. -/
def binaryScan (st : TokenIterator) : Except Failure (TokenType × TokenIterator) := do
  let st := st.advance.advance
  let st ← scanWhile binaryCond st.innerFuel st
  let st :=
    if st.is_in_bounds && (st.charAtD = 'e' || st.charAtD = 'E') then
      let st := st.advance
      if st.is_in_bounds && st.charAtD = '-' then st.advance else st
    else st
  let st ← scanWhile binaryCond st.innerFuel st
  .ok (.number, st)

/-- `TokenIterator.octal` (its loop conditions guard the index). -/
def octalScan (st : TokenIterator) : Except Failure (TokenType × TokenIterator) := do
  let cond : TokenIterator → Except Failure Bool := fun s =>
    .ok (s.is_in_bounds && '0' ≤ s.charAtD && s.charAtD ≤ '7')
  let st := st.advance.advance
  let st ← scanWhile cond st.innerFuel st
  let st :=
    if st.is_in_bounds && (st.charAtD = 'e' || st.charAtD = 'E') then
      let st := st.advance
      if st.is_in_bounds && st.charAtD = '-' then st.advance else st
    else st
  let st ← scanWhile cond st.innerFuel st
  .ok (.number, st)

/-- `TokenIterator.hexadecimal`. -/
def hexScan (st : TokenIterator) : Except Failure (TokenType × TokenIterator) := do
  let cond : TokenIterator → Except Failure Bool := fun s =>
    .ok (s.is_in_bounds && pyIsHexdigit s.charAtD)
  let st := st.advance.advance
  let st ← scanWhile cond st.innerFuel st
  let st :=
    if st.is_in_bounds && (st.charAtD = 'e' || st.charAtD = 'E') then
      let st := st.advance
      if st.is_in_bounds && st.charAtD = '-' then st.advance else st
    else st
  let st ← scanWhile cond st.innerFuel st
  .ok (.number, st)

/-- Exponent condition of `TokenIterator.decimal` (all its reads are
guarded by the bounds tests that precede them, as in the source). -/
def decimalExpCond (st : TokenIterator) (digit_before_decimal : Bool) : Bool :=
  st.current_index + 1 < st.source.length &&
    (digit_before_decimal || pyIsDigit (st.charAt1 (st.current_index - 1))) &&
    (st.charAtD = 'e' || st.charAtD = 'E') &&
    (pyIsDigit (st.charAt1 (st.current_index + 1)) ||
      (st.current_index + 2 < st.source.length &&
        (st.charAt1 (st.current_index + 1) = '+' || st.charAt1 (st.current_index + 1) = '-') &&
        pyIsDigit (st.charAt1 (st.current_index + 2))))

/-- `TokenIterator.decimal`. -/
def decimalScan (st : TokenIterator) : Except Failure (TokenType × TokenIterator) := do
  let digit_before_decimal := pyIsDigit st.charAtD
  let st := if digit_before_decimal then st.advance else st
  let st ← scanWhile
    (fun s => .ok (s.is_in_bounds && (pyIsDigit s.charAtD || s.charAtD = '_')))
    st.innerFuel st
  let st := if st.is_in_bounds && st.charAtD = '.' then st.advance else st
  let st ← scanWhile
    (fun s => .ok (s.is_in_bounds &&
      (pyIsDigit s.charAtD ||
        (s.charAtD = '_' && pyIsDigit (s.charAt1 (s.current_index - 1))))))
    st.innerFuel st
  let st := if decimalExpCond st digit_before_decimal then st.advance.advance else st
  let st ← scanWhile
    (fun s => .ok (s.is_in_bounds &&
      (pyIsDigit s.charAtD ||
        ((digit_before_decimal || pyIsDigit (s.charAt1 (s.current_index - 1))) &&
          s.charAtD = '_'))))
    st.innerFuel st
  let st :=
    if st.is_in_bounds &&
        (digit_before_decimal || pyIsDigit (st.charAt1 (st.current_index - 1))) &&
        (st.charAtD = 'j' || st.charAtD = 'J') then
      st.advance
    else st
  if st.current_index - st.prev_index = 1 ∧ st.charAt1 (st.current_index - 1) = '.' then
    if st.current_index + 2 ≤ st.source.length ∧
        pySlice st.source st.current_index (st.current_index + 2) = ['.', '.'] then
      .ok (.op, st.advance.advance)
    else .ok (.op, st)
  else .ok (.number, st)

/-- `TokenIterator.find_opening_quote`: the quote must be within three
characters of the cursor; the reads are unchecked (`IndexError` past the
end), and not finding one is an `AssertionError`. -/
def find_opening_quote (st : TokenIterator) : Except Failure Nat := do
  let c0 ← pyGet st.source st.current_index
  if c0 = '"' ∨ c0 = sqChar then .ok st.current_index
  else do
    let c1 ← pyGet st.source (st.current_index + 1)
    if c1 = '"' ∨ c1 = sqChar then .ok (st.current_index + 1)
    else do
      let c2 ← pyGet st.source (st.current_index + 2)
      if c2 = '"' ∨ c2 = sqChar then .ok (st.current_index + 2)
      else .error .assertionError

/-- `TokenIterator.string_prefix_and_quotes`. -/
def string_prefix_and_quotes (st : TokenIterator) :
    Except Failure (Source × Source) := do
  let quote_index ← find_opening_quote st
  let pfx := pySlice st.source st.current_index quote_index
  let quote_char := st.charAt1 quote_index
  let quote :=
    if quote_index + 3 ≤ st.source.length ∧
        st.charAt1 (quote_index + 1) = quote_char ∧
        st.charAt1 (quote_index + 2) = quote_char then
      pySlice st.source quote_index (quote_index + 3)
    else pySlice st.source quote_index (quote_index + 1)
  .ok (pfx, quote)

/-- Exits of the `at_fstring_middle` scanning loop: a `{` opening an
expression hole, or the closing quote. -/
inductive MiddleExit where
  | lbrace
  | endq
deriving DecidableEq, Repr

/-- The template-scanning loop of the `at_fstring_middle` branch of
`TokenIterator.fstring` (the f-string sub-state transition is applied at
the exit, as in the source). -/
def fstringMiddleLoop (quote : Source) (is_single_quote : Bool) :
    Nat → TokenIterator → Except Failure (MiddleExit × TokenIterator)
  | 0, _ => .error .fuelOut
  | fuel + 1, st =>
    if st.is_in_bounds then
      let c := st.charAtD
      if c = '\n' ∧ is_single_quote then .error .unterminatedString
      else if c = '\\' then do
        let st := st.advance
        let st :=
          if st.current_index + 1 < st.source.length ∧ st.charAtD = 'N' ∧
              st.charAt1 (st.current_index + 1) = '{' then
            st.advance.advance
          else st
        let st ←
          if st.is_in_bounds ∧ ¬(st.charAtD = '{' ∨ st.charAtD = '}') then
            st.advance_check_newline
          else .ok st
        fstringMiddleLoop quote is_single_quote fuel st
      else if c = '{' then do
        let cnext ← st.peek_next
        if cnext = '{' then fstringMiddleLoop quote is_single_quote fuel st.advance.advance
        else .ok (.lbrace, st.consume_fstring_middle_for_lbrace)
      else if matchOne st quote false then
        .ok (.endq, st.consume_fstring_middle_for_end)
      else do
        let st ← st.advance_check_newline
        fstringMiddleLoop quote is_single_quote fuel st
    else .error .unexpectedEOF

/-- Exits of the `in_fstring_expr_modifier` scanning loop: a newline or a
nested `{` (followed by the empty-middle check), or a closing `}` (which
returns the middle token unconditionally, as in the source). -/
inductive ModExit where
  | emptyCheck
  | direct
deriving DecidableEq, Repr

/-- The format-spec scanning loop of the `in_fstring_expr_modifier` branch
of `TokenIterator.fstring`. -/
def fstringModifierLoop (quote : Source) :
    Nat → TokenIterator → Except Failure (ModExit × TokenIterator)
  | 0, _ => .error .fuelOut
  | fuel + 1, st =>
    if st.is_in_bounds then
      let c := st.charAtD
      if (c = '\n' ∨ c = '{') ∧ quote.length = 1 then
        let st :=
          if c = '{' then st.consume_fstring_middle_for_lbrace
          else { st with fstring_state := .in_fstring_expr }
        .ok (.emptyCheck, st)
      else if c = '}' then
        .ok (.direct, { st with fstring_state := .in_fstring_expr })
      else do
        let st ← st.advance_check_newline
        fstringModifierLoop quote fuel st
    else .error .unexpectedEOF

/-- Scan phase of `TokenIterator.fstring`.  The recursion parameter `rf`
bounds the `return self.fstring()` self-calls used to skip empty middle
tokens; that recursion has depth at most two, and every call site passes
at least three. -/
def fstringScan : Nat → TokenIterator → Except Failure (TokenType × TokenIterator)
  | 0, _ => .error .fuelOut
  | rf + 1, st =>
    if st.fstring_state = .not_fstring ∨ st.fstring_state = .in_fstring_expr then do
      let (pfx, quote) ← string_prefix_and_quotes st
      let st := st.push_fstring_quote quote
      let st := st.advance_by pfx.length
      let st := st.advance_by quote.length
      let st := st.enter_fstring
      .ok (.fstring_start, st)
    else if st.fstring_state = .at_fstring_middle then
      match st.fstring_quote with
      | none => .error .assertionError
      | some quote => do
        let is_single_quote := quote.length = 1
        let start_index := st.current_index
        let (_, st') ← fstringMiddleLoop quote is_single_quote st.innerFuel st
        if st'.current_index = start_index then fstringScan rf st'
        else .ok (.fstring_middle, st')
    else if st.fstring_state = .at_fstring_lbrace then
      let st := st.advance
      let st := { st with bracket_level_stack := st.bracket_level :: st.bracket_level_stack,
                          bracket_level := 0 }
      let st := st.consume_lbrace
      .ok (.lbrace, st)
    else if st.fstring_state = .at_fstring_end then
      match st.fstring_quote with
      | none => .error .assertionError
      | some quote => do
        let st := st.advance_by quote.length
        let st ← st.pop_fstring_quote
        let st ← st.leave_fstring
        .ok (.fstring_end, st)
    else
      match st.fstring_quote with
      | none => .error .assertionError
      | some quote => do
        let start_index := st.current_index
        let (ex, st') ← fstringModifierLoop quote st.innerFuel st
        match ex with
        | .emptyCheck =>
          if st'.current_index = start_index then fstringScan rf st'
          else .ok (.fstring_middle, st')
        | .direct => .ok (.fstring_middle, st')

/-- The closing-quote scanning loop of `TokenIterator.string`. -/
def stringLoop (quote : Source) (is_single_quote : Bool) :
    Nat → TokenIterator → Except Failure TokenIterator
  | 0, _ => .error .fuelOut
  | fuel + 1, st =>
    if st.is_in_bounds then
      let c := st.charAtD
      if c = '\n' ∧ is_single_quote then .error .unterminatedString
      else if c = '\\' then do
        let st := st.advance
        let st ← st.advance_check_newline
        stringLoop quote is_single_quote fuel st
      else if matchOne st quote false then
        .ok (st.advance_by quote.length)
      else do
        let st ← st.advance_check_newline
        stringLoop quote is_single_quote fuel st
    else .error .unexpectedEOF

/-- Scan phase of `TokenIterator.string`: an `f`/`F` in the prefix defers
to the f-string scanner (with the cursor still at the prefix), anything
else scans a plain string literal. -/
def stringScan (rf : Nat) (st : TokenIterator) :
    Except Failure (TokenType × TokenIterator) := do
  let (pfx, quote) ← string_prefix_and_quotes st
  if pfx.any (fun c => c = 'f' ∨ c = 'F') then fstringScan rf st
  else
    let st := st.advance_by pfx.length
    let st := st.advance_by quote.length
    let is_single_quote := quote.length = 1
    let st ← stringLoop quote is_single_quote st.innerFuel st
    .ok (.string, st)

/-- The leading-whitespace loop of `TokenIterator.indent`, returning the
advanced state with the `saw_whitespace` and `saw_tab_or_space` flags. -/
def indentLoop : Nat → TokenIterator → Bool → Bool →
    Except Failure (TokenIterator × Bool × Bool)
  | 0, _, _, _ => .error .fuelOut
  | fuel + 1, st, saw_whitespace, saw_tab_or_space =>
    if st.is_in_bounds then
      let c := st.charAtD
      if is_whitespace c then
        indentLoop fuel st.advance true (saw_tab_or_space || c = ' ' || c = '\t')
      else .ok (st, saw_whitespace, saw_tab_or_space)
    else .ok (st, saw_whitespace, saw_tab_or_space)

/-- The dedent pop loop of `TokenIterator.indent`: pop levels longer than
the new indentation, counting each pop; raise when a remaining level is
strictly shorter than the new indentation; stop at one of equal length or
when the stack drains. -/
def dedentLoop : List Source → Nat → Nat → Except Failure (List Source × Nat)
  | [], counter, _ => .ok ([], counter)
  | top :: rest, counter, nLen =>
    if top.length < nLen then .error .dedentDoesNotMatchAnyOuterIndent
    else if top.length = nLen then .ok (top :: rest, counter)
    else dedentLoop rest (counter + 1) nLen

/-- Scan phase of `TokenIterator.indent`.  A `none` token kind models the
caught `NotAnIndent` exception — note the returned state keeps any cursor
movement performed before the raise, matching the mutations that persist
on the Python object. -/
def indentScan (st : TokenIterator) :
    Except Failure (Option TokenType × TokenIterator) := do
  let start_index := st.current_index
  let (st, saw_whitespace, saw_tab_or_space) ← indentLoop st.innerFuel st false false
  if ¬ st.is_in_bounds then
    if st.current_index = start_index then .ok (none, st)
    else .ok (some .whitespace, st)
  else
    let start_index := if saw_whitespace ∧ ¬ saw_tab_or_space then st.current_index else start_index
    let next_char := st.charAtD
    if next_char = '#' ∨ next_char = '\\' ∨ next_char = '\r' ∨ next_char = '\n' then
      .ok (some .whitespace, st)
    else
      let new_indent := pySlice st.source start_index st.current_index
      let current_indent := st.indent_stack.headD []
      if new_indent.length = current_indent.length then
        if new_indent.length = 0 then .ok (none, st)
        else if new_indent ≠ current_indent then .error .inconsistentUseOfTabsAndSpaces
        else .ok (some .whitespace, st)
      else if new_indent.length > current_indent.length then
        if current_indent.length > 0 ∧ ¬ pyIn current_indent new_indent then
          .error .inconsistentUseOfTabsAndSpaces
        else .ok (some .indent, { st with indent_stack := new_indent :: st.indent_stack })
      else do
        let (stack', counter') ← dedentLoop st.indent_stack st.dedent_counter new_indent.length
        .ok (some .whitespace, { st with indent_stack := stack', dedent_counter := counter' })

/-- `TokenIterator.is_newline`: true at LF, and at CR followed by LF (in
which case it also advances over the CR, as in the source). -/
def is_newlineFn (st : TokenIterator) : Bool × TokenIterator :=
  if st.charAtD = '\n' then (true, st)
  else if st.charAtD = '\r' ∧ st.current_index + 1 < st.source.length ∧
      st.charAt1 (st.current_index + 1) = '\n' then
    (true, st.advance)
  else (false, st)

/-- The identifier-length loop of `TokenIterator.name`: the first `i` for
which `remaining[:i]` stops being an identifier, minus one; the whole
remainder when the loop completes. -/
def nameLenLoop (remaining : Source) : Nat → Nat → Nat
  | 0, _ => remaining.length
  | fuel + 1, i =>
    if i > remaining.length then remaining.length
    else if ¬ pyIsidentifier (remaining.take i) then i - 1
    else nameLenLoop remaining fuel (i + 1)

/-- Scan phase of `TokenIterator.name`. -/
def nameScan (st : TokenIterator) : Except Failure (TokenType × TokenIterator) := do
  let remaining := st.source.drop st.current_index
  match remaining with
  | [] => .error .indexError
  | c0 :: _ =>
    if ¬ pyIsidentifier [c0] then .error .unexpectedCharacter
    else
      let length := nameLenLoop remaining (remaining.length + 1) 1
      .ok (.identifier, st.advance_by length)

/-- The whitespace-consuming loop of the line-continuation (`\`) handler
in `TokenIterator.__next__`, with its `found_whitespace` flag.  A line
break inside it is consumed without emitting a newline token; when the
line so far was all whitespace the loop breaks (the whitespace of the next
line is still valid indentation), otherwise the next line is treated as
the same logical line and the loop continues. -/
def backslashLoop : Nat → TokenIterator → Bool → Except Failure (TokenIterator × Bool)
  | 0, _, _ => .error .fuelOut
  | fuel + 1, st, found_whitespace =>
    if st.is_in_bounds then
      let c := st.charAtD
      if is_whitespace c then backslashLoop fuel st.advance true
      else if c = '\n' ∨ (c = '\r' ∧ st.current_index + 1 < st.source.length ∧
          st.charAt1 (st.current_index + 1) = '\n') then
        let st := if c = '\r' then st.advance else st
        let st := st.advance
        if st.all_whitespace_on_this_line then .ok (st.next_line, true)
        else
          backslashLoop fuel
            { st.next_line with all_whitespace_on_this_line := false } true
      else .ok (st, found_whitespace)
    else .ok (st, found_whitespace)

/-- The string-literal dispatch condition of `TokenIterator.__next__`
(lines 989–1019): a quote, or a one-letter prefix `b r f u` (any case)
before a quote, or a two-letter prefix `br rb fr rf` (any case). -/
def stringDispatch (st : TokenIterator) : Bool :=
  (st.current_index + 1 ≤ st.source.length && matchOpts st [['"'], [sqChar]] false) ||
  (st.current_index + 2 ≤ st.source.length &&
    matchOpts st
      [['b', '"'], ['b', sqChar], ['r', '"'], ['r', sqChar],
       ['f', '"'], ['f', sqChar], ['u', '"'], ['u', sqChar]] true) ||
  (st.current_index + 3 ≤ st.source.length &&
    matchOpts st
      [['b', 'r', '"'], ['b', 'r', sqChar], ['r', 'b', '"'], ['r', 'b', sqChar],
       ['f', 'r', '"'], ['f', 'r', sqChar], ['r', 'f', '"'], ['r', 'f', sqChar]] true)

/-- The numeric-literal dispatch of `TokenIterator.__next__` (lines
973–987). -/
def numberDispatch (st : TokenIterator) : Except Failure (TokenType × TokenIterator) :=
  if st.current_index + 2 ≤ st.source.length ∧
      (pySlice st.source st.current_index (st.current_index + 2) = ['0', 'b'] ∨
       pySlice st.source st.current_index (st.current_index + 2) = ['0', 'B']) then
    binaryScan st
  else if st.current_index + 2 ≤ st.source.length ∧
      (pySlice st.source st.current_index (st.current_index + 2) = ['0', 'o'] ∨
       pySlice st.source st.current_index (st.current_index + 2) = ['0', 'O']) then
    octalScan st
  else if st.current_index + 2 ≤ st.source.length ∧
      (pySlice st.source st.current_index (st.current_index + 2) = ['0', 'x'] ∨
       pySlice st.source st.current_index (st.current_index + 2) = ['0', 'X']) then
    hexScan st
  else decimalScan st

/-- Literal dispatch tail of `TokenIterator.__next__` (lines 973–1022):
numbers, string literals, identifiers (the final links of the `elif`
chain, split out of `dispatchScan` only to keep each definition small). -/
def dispatchLiteral (current_char : Char) (st : TokenIterator) :
    Except Failure (TokenType × TokenIterator) :=
  if ['.', '0', '1', '2', '3', '4', '5', '6', '7', '8', '9'].contains current_char then
    numberDispatch st
  else if stringDispatch st then stringScan 3 st
  else nameScan st

/-- Bracket and colon dispatch of `TokenIterator.__next__` (lines
916–971), falling through to `dispatchLiteral`. -/
def dispatchBrackets (current_char : Char) (st : TokenIterator) :
    Except Failure (TokenType × TokenIterator) :=
  if current_char = '(' then
    .ok (.lparen, { st.advance with bracket_level := st.bracket_level + 1 })
  else if current_char = ')' then
    .ok (.rparen, { st.advance with bracket_level := st.bracket_level - 1 })
  else if current_char = '[' then
    .ok (.lbracket, { st.advance with bracket_level := st.bracket_level + 1 })
  else if current_char = ']' then
    .ok (.rbracket, { st.advance with bracket_level := st.bracket_level - 1 })
  else if current_char = '{' then
    .ok (.lbrace, { st.advance with bracket_level := st.bracket_level + 1 })
  else if current_char = '}' then
    let st := st.advance
    if st.bracket_level = 0 ∧ st.fstring_state = .in_fstring_expr then do
      let st ← st.consume_rbrace
      match st.bracket_level_stack with
      | [] => .error .indexError
      | b :: rest =>
        .ok (.rbrace, { st with bracket_level := b, bracket_level_stack := rest })
    else .ok (.rbrace, { st with bracket_level := st.bracket_level - 1 })
  else if current_char = ':' then
    let st := st.advance
    if st.bracket_level = 0 ∧ st.fstring_state = .in_fstring_expr then
      .ok (.op, { st with fstring_state := .in_fstring_expr_modifier })
    else do
      let c ← st.peek
      let st := if c = '=' then st.advance else st
      .ok (.op, st)
  else dispatchLiteral current_char st

/-- The whitespace / operator / bracket / number / string / name dispatch
tail of `TokenIterator.__next__` (lines 844–1022), entered after the
indent attempt.  `current_char` is the character captured before the
indent attempt, exactly as the Python local variable.  The `elif` chain
continues in `dispatchBrackets` and `dispatchLiteral`. -/
def dispatchScan (current_char : Char) (st : TokenIterator) :
    Except Failure (TokenType × TokenIterator) :=
  if current_char = ' ' ∨ current_char = '\r' ∨ current_char = '\t' ∨
      current_char = '\x0b' ∨ current_char = '\x0c' then do
    let st ← scanWhile (fun s => .ok (s.is_in_bounds && is_whitespace s.charAtD))
      st.innerFuel st
    .ok (.whitespace, st)
  else if ['+', '&', '|', ',', '^', '@', '%', '=', '!', '~'].contains current_char then do
    let st := st.advance
    let c ← st.peek
    let st := if c = '=' then st.advance else st
    .ok (.op, st)
  else if current_char = '<' then do
    let st := st.advance
    let c ← st.peek
    if c = '>' then .ok (.op, st.advance)
    else do
      let st := if c = '<' then st.advance else st
      let c2 ← st.peek
      let st := if c2 = '=' then st.advance else st
      .ok (.op, st)
  else if current_char = '>' then do
    let st := st.advance
    let c ← st.peek
    let st := if c = '>' then st.advance else st
    let c2 ← st.peek
    let st := if c2 = '=' then st.advance else st
    .ok (.op, st)
  else if current_char = '/' then do
    let st := st.advance
    let c ← st.peek
    let st := if c = '/' then st.advance else st
    let c2 ← st.peek
    let st := if c2 = '=' then st.advance else st
    .ok (.op, st)
  else if current_char = '*' then do
    let st := st.advance
    let c ← st.peek
    let st := if c = '*' then st.advance else st
    let c2 ← st.peek
    let st := if c2 = '=' then st.advance else st
    .ok (.op, st)
  else if current_char = '-' then do
    let st := st.advance
    let c ← st.peek
    if c = '>' then .ok (.op, st.advance)
    else do
      let st := if c = '=' then st.advance else st
      .ok (.op, st)
  else if current_char = ',' ∨ current_char = ';' then .ok (.op, st.advance)
  else if current_char = btChar then .ok (.op, st.advance)
  else dispatchBrackets current_char st

/-- Tail of the scan phase of `TokenIterator.__next__`, entered when the
cursor is inside the source and no f-string middle is pending: comments,
pending dedents, newlines, line continuations, bare CR, the indentation
attempt and the operator/literal dispatch. -/
def scanNextCore (st : TokenIterator) : Except Failure (Option (TokenType × TokenIterator)) :=
  let current_char := st.charAtD
    if current_char = '#' then do
      let st ← scanWhile
        (fun s => .ok (s.is_in_bounds && s.charAtD != '\n' && s.charAtD != '\r'))
        st.innerFuel st
      .ok (some (.comment, st))
    else if st.dedent_counter > 0 then
      .ok (some (.dedent, { st with dedent_counter := st.dedent_counter - 1 }))
    else
      let (isnl, st) := is_newlineFn st
      if isnl then .ok (some (newlineScan st))
      else if current_char = '\\' then
        let st := st.advance
        if ¬ st.is_in_bounds then .error .unexpectedEOF
        else do
          let (st, found_whitespace) ← backslashLoop st.innerFuel st false
          if ¬ found_whitespace then .error .unexpectedCharacterAfterBackslash
          else .ok (some (.whitespace, st))
      else if current_char = '\r' then
        let st := st.advance
        if st.is_in_bounds then
          if st.charAtD = '\n' then .error .assertionError
          else .ok (some (.op, st.advance))
        else .ok (some (newlineScan st))
      else do
        let (iopt, st) ←
          if st.byte_offset = 0 ∧ st.bracket_level = 0 ∧ st.fstring_state = .not_fstring then
            indentScan st
          else .ok (none, st)
        match iopt with
        | some ty => .ok (some (ty, st))
        | none => (dispatchScan current_char st).map some

/-- Scan phase of `TokenIterator.__next__`: `ok none` is `StopIteration`;
`ok (some (ty, st))` is the token kind and the advanced state to which the
single trailing `make_token` is applied. -/
def scanNext (st : TokenIterator) : Except Failure (Option (TokenType × TokenIterator)) :=
  if st.prev_token.map Token.type = some .endmarker then .ok none
  else if st.current_index = st.source.length then
    match st.prev_token with
    | none => .ok (some (endmarkerScan st))
    | some t =>
      if t.type = .newline ∨ t.type = .nl ∨ t.type = .dedent then
        .ok (some (endmarkerScan st))
      else .ok (some (newlineScan st))
  else if st.current_index > st.source.length then .ok (some (endmarkerScan st))
  else if st.fstring_state ≠ .not_fstring ∧ st.fstring_state ≠ .in_fstring_expr then
    (fstringScan 3 st).map some
  else scanNextCore st

/-- One pull of the iterator: `ok none` is `StopIteration`, otherwise the
emitted token and the next state. -/
def nextToken (st : TokenIterator) : Except Failure (Option (Token × TokenIterator)) := do
  match ← scanNext st with
  | none => .ok none
  | some (ty, st₁) => .ok (some (st₁.make_token ty))

/-- Pull tokens until `StopIteration` (or until the step fuel runs out). -/
def tokenizeFuel : Nat → TokenIterator → Except Failure (List Token × TokenIterator)
  | 0, _ => .error .fuelOut
  | fuel + 1, st => do
    match ← nextToken st with
    | none => .ok ([], st)
    | some (t, st') => do
      let (ts, sf) ← tokenizeFuel fuel st'
      .ok (t :: ts, sf)

/-- Fresh iterator over a source string. -/
def initIter (src : Source) : TokenIterator := { source := src }

/-- The `tokenize` entry point, driven by an explicit number of pulls. -/
def tokenize (src : Source) (fuel : Nat) : Except Failure (List Token × TokenIterator) :=
  tokenizeFuel fuel (initIter src)

/-- Run exactly `n` pulls (stopping early at `StopIteration`) and return
the state reached. -/
def stepN : Nat → TokenIterator → Except Failure TokenIterator
  | 0, st => .ok st
  | n + 1, st => do
    match ← nextToken st with
    | none => .ok st
    | some (_, st') => stepN n st'

/-- `Token.to_byte_slice`: the text the token stands for, empty for the
synthesized trailing newline, the end-of-file dedents and the endmarker. -/
def to_byte_slice (source : Source) (t : Token) : Source :=
  if (t.type = .newline ∨ t.type = .nl) ∧ t.start_index = source.length ∧
      t.end_index = source.length + 1 then []
  else if t.type = .dedent ∧ t.start_index = source.length + 1 ∧
      t.end_index = source.length + 1 then []
  else if t.type = .endmarker then []
  else pySlice source t.start_index t.end_index

/-- Token list of a tokenization result (empty on failure). -/
def resTokens (r : Except Failure (List Token × TokenIterator)) : List Token :=
  match r with
  | .ok (ts, _) => ts
  | .error _ => []

/-- Final state of a tokenization result (a dummy empty iterator on failure). -/
def resState (r : Except Failure (List Token × TokenIterator)) : TokenIterator :=
  match r with
  | .ok (_, sf) => sf
  | .error _ => initIter []

/-- Whether a result is a success. -/
def resOk (r : Except Failure (List Token × TokenIterator)) : Bool :=
  match r with
  | .ok _ => true
  | .error _ => false

/-- Indent stack of a `stepN` result (empty on failure). -/
def stepStack (r : Except Failure TokenIterator) : List Source :=
  match r with
  | .ok st => st.indent_stack
  | .error _ => []

/-- The token emitted by one pull, if the pull succeeds with a token. -/
def nextTokenTok (st : TokenIterator) : Option Token :=
  match nextToken st with
  | .ok (some (t, _)) => some t
  | _ => none

/-- Pairwise chain check over consecutive tokens of a list. -/
def chainB (r : Token → Token → Bool) : List Token → Bool
  | [] => true
  | [_] => true
  | a :: b :: rest => r a b && chainB r (b :: rest)

/-- The contiguity relation asserted by claim C10: the later token starts
exactly (index, line and column) where the earlier one ends. -/
def contiguousClaim (t1 t2 : Token) : Bool :=
  t2.start_index == t1.end_index && t2.start_line == t1.end_line &&
    t2.start_col == t1.end_col

/-- The amended contiguity relation: byte indices always tile; lines and
columns tile too, except that a NEWLINE/NL token is followed by a token
starting at the next line, column zero. -/
def contiguousAmended (t1 t2 : Token) : Bool :=
  t2.start_index == t1.end_index &&
    (if t1.type = .newline ∨ t1.type = .nl then
      t2.start_line == t1.end_line + 1 && t2.start_col == 0
    else
      t2.start_line == t1.end_line && t2.start_col == t1.end_col)

/-- The indent-stack invariant the code actually maintains: reading from
the top of the stack down, each element is strictly longer than, and
contains as a contiguous substring, the element below it. -/
def chainSubB : List Source → Bool
  | [] => true
  | [_] => true
  | upper :: lower :: rest =>
    (decide (lower.length < upper.length) && pyIn lower upper) && chainSubB (lower :: rest)

/-- Whether a token list is empty or starts at byte 0, line 1, column 0. -/
def headStartOk (ts : List Token) : Bool :=
  match ts with
  | [] => true
  | t :: _ => t.start_index == 0 && t.start_line == 1 && t.start_col == 0

/-- Facts preserved by every scan phase: the source and the `prev_*`
bookkeeping are untouched and the cursor only moves forward. -/
structure Pres0 (st st' : TokenIterator) : Prop where
  source_eq : st'.source = st.source
  prev_index_eq : st'.prev_index = st.prev_index
  prev_line_eq : st'.prev_line_number = st.prev_line_number
  prev_off_eq : st'.prev_byte_offset = st.prev_byte_offset
  prev_token_eq : st'.prev_token = st.prev_token
  current_mono : st.current_index ≤ st'.current_index

/-- Scan-phase preservation together with an untouched indent stack. -/
def LPres (st st' : TokenIterator) : Prop :=
  Pres0 st st' ∧ st'.indent_stack = st.indent_stack

/-- How one step may change the indent stack: not at all, one push that
passed the tab/space-consistency check, or popping some levels from the
top. -/
def StackEv (st st' : TokenIterator) : Prop :=
  st'.indent_stack = st.indent_stack ∨
  (∃ N, st'.indent_stack = N :: st.indent_stack ∧
    ∀ T ∈ st.indent_stack.head?, T.length < N.length ∧ pyIn T N = true) ∨
  st'.indent_stack <:+ st.indent_stack

/-- The states in which `__next__` enters the `endmarker` routine: the
cursor is at (or past) the end of source, and at exactly the end only
when nothing was emitted yet or the previous token was a NEWLINE, NL or
DEDENT. -/
def Terminal (st : TokenIterator) : Prop :=
  st.source.length ≤ st.current_index ∧
  (st.current_index = st.source.length →
    st.prev_token = none ∨
      ∃ t, st.prev_token = some t ∧
        (t.type = .newline ∨ t.type = .nl ∨ t.type = .dedent))

/-- No ENDMARKER has been emitted yet. -/
def PrevTokOk (st : TokenIterator) : Prop :=
  ∀ t, st.prev_token = some t → t.type ≠ .endmarker

/-- Between two pulls the `prev_*` position fields coincide with the
current ones (established by `make_token`, true of the fresh iterator). -/
def EQinv (st : TokenIterator) : Prop :=
  st.prev_index = st.current_index ∧ st.prev_line_number = st.line_number ∧
    st.prev_byte_offset = st.byte_offset

/-- The zero-width DEDENT token the `endmarker` routine emits at `st`. -/
def eofDedent (st : TokenIterator) : Token :=
  ⟨.dedent, st.current_index, st.current_index, st.line_number, st.byte_offset,
    st.line_number, st.byte_offset⟩

/-- The zero-width ENDMARKER token emitted at `st`. -/
def eofEnd (st : TokenIterator) : Token :=
  ⟨.endmarker, st.current_index, st.current_index, st.line_number, st.byte_offset,
    st.line_number, st.byte_offset⟩

/-- Decidable equality of results. -/
instance {ε α : Type} [DecidableEq ε] [DecidableEq α] : DecidableEq (Except ε α) :=
  fun a b =>
    match a, b with
    | .ok x, .ok y =>
      if h : x = y then .isTrue (by rw [h]) else .isFalse (by intro hc; injection hc; contradiction)
    | .error e, .error f =>
      if h : e = f then .isTrue (by rw [h]) else .isFalse (by intro hc; injection hc; contradiction)
    | .ok _, .error _ => .isFalse (by intro hc; injection hc)
    | .error _, .ok _ => .isFalse (by intro hc; injection hc)

/-! ## Theorems -/

/-- C3: refuted by the code.  The claim says every failure is one of the
typed exceptions and in particular that a source ending right after a
binary literal (`0b1`) or after a single-character operator (`x+`)
tokenizes to a stream ending in ENDMARKER.  In fact `x+` dies on the
unguarded `self.peek()` after the operator (an `assert` failure at end of
source), and `0b1` dies with an `IndexError`: the loop condition of
`binary` is `is_in_bounds() and s[i] == "0" or s[i] == "1"`, whose second
disjunct indexes past the end once the literal reaches end of source. -/
theorem C3_untyped_failures_reachable :
    tokenize ['x', '+'] 10 = .error .assertionError ∧
    tokenize ['0', 'b', '1'] 10 = .error .indexError := by
  exact ⟨rfl, rfl⟩

/-- C5: refuted by the code.  `TokenType` has no `tstring_start` /
`tstring_middle` / `tstring_end` members and `string` checks the prefix
only for `f`/`F`, so the source `t"foo {f'bar'} baz"` lexes as the
identifier `t` followed by one plain STRING token (the `{...}` is
ordinary string content), not as a t-string token sequence. -/
theorem C5_tstring_not_lexed :
    resTokens (tokenize
      ['t', '"', 'f', 'o', 'o', ' ', '{', 'f', sqChar, 'b', 'a', 'r', sqChar,
       '}', ' ', 'b', 'a', 'z', '"'] 30) =
    [⟨.identifier, 0, 1, 1, 0, 1, 1⟩, ⟨.string, 1, 19, 1, 1, 1, 19⟩,
     ⟨.newline, 19, 20, 1, 19, 1, 20⟩, ⟨.endmarker, 20, 20, 2, 0, 2, 0⟩] := by
  exact rfl

/-- C9: refuted by the code.  On `"{\r}"` the claim (and the repository's
own test) expects `lbrace[0,1] ws[1,2] rbrace[2,3] newline[3,4]
endmarker[4,4]`, but the bare-CR branch of `__next__` runs before the
whitespace branch and merges the CR with the following `}` into one OP
token, leaving the bracket open so the synthesized trailing newline is NL:
the code yields `lbrace[0,1] op[1,3] nl[3,4] endmarker[4,4]`. -/
theorem C9_bare_cr_in_brackets :
    resTokens (tokenize ['{', '\r', '}'] 10) =
    [⟨.lbrace, 0, 1, 1, 0, 1, 1⟩, ⟨.op, 1, 3, 1, 1, 1, 3⟩,
     ⟨.nl, 3, 4, 1, 3, 1, 4⟩, ⟨.endmarker, 4, 4, 2, 0, 2, 0⟩] := by
  exact rfl

/-- C6 counterexample: the claim's own example `"if x:\n  pass\n x"`
(dedent to a one-space indent matching no stack level) does NOT raise
`DedentDoesNotMatchAnyOuterIndent` — the pop loop only raises when it
meets a remaining level strictly shorter than the new indentation, and
here the stack drains completely, so tokenization completes. -/
theorem C6_counterexample :
    resOk (tokenize
      ['i', 'f', ' ', 'x', ':', '\n', ' ', ' ', 'p', 'a', 's', 's', '\n',
       ' ', 'x'] 30) = true ∧
    tokenize
      ['i', 'f', ' ', 'x', ':', '\n', ' ', ' ', 'p', 'a', 's', 's', '\n',
       ' ', 'x'] 30 ≠ .error .dedentDoesNotMatchAnyOuterIndent := by
  exact ⟨rfl, by decide⟩

/-- C7 counterexample: a source ending in a bare backslash (`"x = \"`)
raises `UnexpectedEOF`, not `UnexpectedCharacterAfterBackslash` as the
claim states: the end-of-source case is checked first and raises its own
failure kind. -/
theorem C7_counterexample :
    tokenize ['x', ' ', '=', ' ', '\\'] 10 = .error .unexpectedEOF ∧
    tokenize ['x', ' ', '=', ' ', '\\'] 10 ≠
      .error .unexpectedCharacterAfterBackslash := by
  exact ⟨rfl, by decide⟩

/-- C8 counterexample: the push check uses Python's substring test
(`current_indent not in new_indent`), not a prefix test, so the stack
state `["  ", "\t  "]` (claimed unreachable) is reached by
`"if x:\n  if y:\n\t  pass\n"`: after twelve pulls the indent stack is
exactly that (top first here), the lower level is not a prefix of the
upper one, and tokenization nevertheless completes. -/
theorem C8_counterexample :
    stepStack (stepN 12 (initIter
      ['i', 'f', ' ', 'x', ':', '\n', ' ', ' ', 'i', 'f', ' ', 'y', ':', '\n',
       '\t', ' ', ' ', 'p', 'a', 's', 's', '\n'])) =
      [['\t', ' ', ' '], [' ', ' ']] ∧
    List.isPrefixOf [' ', ' '] ['\t', ' ', ' '] = false ∧
    resOk (tokenize
      ['i', 'f', ' ', 'x', ':', '\n', ' ', ' ', 'i', 'f', ' ', 'y', ':', '\n',
       '\t', ' ', ' ', 'p', 'a', 's', 's', '\n'] 40) = true := by
  exact ⟨rfl, rfl, rfl⟩

/-- C10 counterexample: on `"x\ny"` the token after the NEWLINE starts at
line 2, column 0 while the NEWLINE ends at line 1, column 2, so the
claimed relation (later start line/col equal earlier end line/col for
every consecutive pair) fails even though the byte indices do tile. -/
theorem C10_counterexample :
    resTokens (tokenize ['x', '\n', 'y'] 10) =
      [⟨.identifier, 0, 1, 1, 0, 1, 1⟩, ⟨.newline, 1, 2, 1, 1, 1, 2⟩,
       ⟨.identifier, 2, 3, 2, 0, 2, 1⟩, ⟨.newline, 3, 4, 2, 1, 2, 2⟩,
       ⟨.endmarker, 4, 4, 3, 0, 3, 0⟩] ∧
    chainB contiguousClaim (resTokens (tokenize ['x', '\n', 'y'] 10)) = false := by
  exact ⟨rfl, rfl⟩


/-! ### Monad-reduction and preservation infrastructure -/

theorem bind_ok_l {ε α β : Type} (a : α) (f : α → Except ε β) :
    (Except.ok a : Except ε α) >>= f = f a := rfl

theorem bind_err_l {ε α β : Type} (e : ε) (f : α → Except ε β) :
    (Except.error e : Except ε α) >>= f = Except.error e := rfl

theorem bind_eq_ok {ε α β : Type} {e : Except ε α} {f : α → Except ε β} {b : β} :
    e >>= f = .ok b ↔ ∃ a, e = .ok a ∧ f a = .ok b := by
  cases e with
  | error e =>
    refine Iff.intro (fun h => by cases h) (fun h => ?_)
    obtain ⟨a, ha, _⟩ := h
    cases ha
  | ok a =>
    refine Iff.intro (fun h => ⟨a, rfl, h⟩) (fun h => ?_)
    obtain ⟨a', ha, hf⟩ := h
    cases ha
    exact hf

theorem map_eq_ok {ε α β : Type} {e : Except ε α} {f : α → β} {b : β} :
    Except.map f e = .ok b ↔ ∃ a, e = .ok a ∧ f a = b := by
  cases e with
  | error e =>
    refine Iff.intro (fun h => by cases h) (fun h => ?_)
    obtain ⟨a, ha, _⟩ := h
    cases ha
  | ok a =>
    refine Iff.intro (fun h => by cases h; exact ⟨a, rfl, rfl⟩) (fun h => ?_)
    obtain ⟨a', ha, hf⟩ := h
    cases ha
    rw [← hf]
    rfl

theorem pres0_rfl (st : TokenIterator) : Pres0 st st := ⟨rfl, rfl, rfl, rfl, rfl, Nat.le_refl _⟩

theorem pres0_trans {a b c : TokenIterator} (h1 : Pres0 a b) (h2 : Pres0 b c) : Pres0 a c :=
  ⟨h2.source_eq.trans h1.source_eq, h2.prev_index_eq.trans h1.prev_index_eq,
   h2.prev_line_eq.trans h1.prev_line_eq, h2.prev_off_eq.trans h1.prev_off_eq,
   h2.prev_token_eq.trans h1.prev_token_eq, Nat.le_trans h1.current_mono h2.current_mono⟩

theorem pres0_advance (st : TokenIterator) : Pres0 st st.advance :=
  ⟨rfl, rfl, rfl, rfl, rfl, Nat.le_succ _⟩

theorem pres0_advance_by (st : TokenIterator) (k : Nat) : Pres0 st (st.advance_by k) :=
  ⟨rfl, rfl, rfl, rfl, rfl, Nat.le_add_right _ _⟩

theorem pres0_next_line (st : TokenIterator) : Pres0 st st.next_line :=
  ⟨rfl, rfl, rfl, rfl, rfl, Nat.le_refl _⟩

theorem lpres_rfl (st : TokenIterator) : LPres st st := ⟨pres0_rfl st, rfl⟩

theorem lpres_trans {a b c : TokenIterator} (h1 : LPres a b) (h2 : LPres b c) : LPres a c :=
  ⟨pres0_trans h1.1 h2.1, h2.2.trans h1.2⟩

theorem lpres_advance (st : TokenIterator) : LPres st st.advance := ⟨pres0_advance st, rfl⟩

theorem lpres_advance_by (st : TokenIterator) (k : Nat) : LPres st (st.advance_by k) :=
  ⟨pres0_advance_by st k, rfl⟩

theorem lpres_next_line (st : TokenIterator) : LPres st st.next_line :=
  ⟨pres0_next_line st, rfl⟩

theorem acn_lpres {st st' : TokenIterator} (h : advance_check_newline st = .ok st') :
    LPres st st' := by
  unfold TokenIterator.advance_check_newline at h
  rw [bind_eq_ok] at h
  obtain ⟨c, _, h⟩ := h
  split at h
  · cases h
    exact ⟨⟨rfl, rfl, rfl, rfl, rfl, Nat.le_succ _⟩, rfl⟩
  · cases h
    exact lpres_advance st

/-! ### Loop lemmas -/

theorem scanWhile_adv {cond : TokenIterator → Except Failure Bool} :
    ∀ {fuel : Nat} {st st' : TokenIterator}, scanWhile cond fuel st = .ok st' →
      ∃ k, st' = st.advance_by k := by
  intro fuel
  induction fuel with
  | zero =>
    intro st st' h
    cases h
  | succ n ih =>
    intro st st' h
    unfold scanWhile at h
    rw [bind_eq_ok] at h
    obtain ⟨b, _, h⟩ := h
    split at h
    · obtain ⟨k, hk⟩ := ih h
      refine ⟨k + 1, ?_⟩
      rw [hk]
      simp [advance, advance_by, Nat.add_assoc, Nat.add_comm 1 k]
    · cases h
      exact ⟨0, by simp [advance_by]⟩

theorem scanWhile_lpres {cond : TokenIterator → Except Failure Bool}
    {fuel : Nat} {st st' : TokenIterator} (h : scanWhile cond fuel st = .ok st') :
    LPres st st' := by
  obtain ⟨k, hk⟩ := scanWhile_adv h
  rw [hk]
  exact lpres_advance_by st k

theorem stringLoop_lpres {quote : Source} {isq : Bool} :
    ∀ {fuel : Nat} {st st' : TokenIterator},
      stringLoop quote isq fuel st = .ok st' → LPres st st' := by
  intro fuel
  induction fuel with
  | zero =>
    intro st st' h
    cases h
  | succ n ih =>
    intro st st' h
    unfold stringLoop at h
    simp only [] at h
    split at h
    · split at h
      · cases h
      · split at h
        · rw [bind_eq_ok] at h
          obtain ⟨stm, hm, h⟩ := h
          exact lpres_trans (lpres_trans (lpres_advance st) (acn_lpres hm)) (ih h)
        · split at h
          · cases h
            exact lpres_advance_by st quote.length
          · rw [bind_eq_ok] at h
            obtain ⟨stm, hm, h⟩ := h
            exact lpres_trans (acn_lpres hm) (ih h)
    · cases h

theorem lpres_of_parts {st st' : TokenIterator} (hs : st'.source = st.source)
    (h1 : st'.prev_index = st.prev_index) (h2 : st'.prev_line_number = st.prev_line_number)
    (h3 : st'.prev_byte_offset = st.prev_byte_offset) (h4 : st'.prev_token = st.prev_token)
    (h5 : st.current_index ≤ st'.current_index) (h6 : st'.indent_stack = st.indent_stack) :
    LPres st st' := ⟨⟨hs, h1, h2, h3, h4, h5⟩, h6⟩

theorem fstringMiddleLoop_lpres {quote : Source} {isq : Bool} :
    ∀ {fuel : Nat} {st : TokenIterator} {r : MiddleExit × TokenIterator},
      fstringMiddleLoop quote isq fuel st = .ok r → LPres st r.2 := by
  intro fuel
  induction fuel with
  | zero =>
    intro st r h
    cases h
  | succ n ih =>
    intro st r h
    unfold fstringMiddleLoop at h
    simp only [] at h
    split at h
    · split at h
      · cases h
      · split at h
        · -- escape branch: split on the `\N{` advance, then on the guarded
          -- `advance_check_newline`
          split at h
          · split at h
            · rw [bind_eq_ok] at h
              obtain ⟨stm, hm, h⟩ := h
              refine lpres_trans ?_ (ih h)
              refine lpres_trans ?_ (acn_lpres hm)
              exact lpres_of_parts rfl rfl rfl rfl rfl (Nat.le_add_right _ 3) rfl
            · rw [bind_ok_l] at h
              refine lpres_trans ?_ (ih h)
              exact lpres_of_parts rfl rfl rfl rfl rfl (Nat.le_add_right _ 3) rfl
          · split at h
            · rw [bind_eq_ok] at h
              obtain ⟨stm, hm, h⟩ := h
              refine lpres_trans ?_ (ih h)
              refine lpres_trans ?_ (acn_lpres hm)
              exact lpres_advance st
            · rw [bind_ok_l] at h
              refine lpres_trans ?_ (ih h)
              exact lpres_advance st
        · split at h
          · rw [bind_eq_ok] at h
            obtain ⟨cnext, _, h⟩ := h
            split at h
            · refine lpres_trans ?_ (ih h)
              exact lpres_of_parts rfl rfl rfl rfl rfl (Nat.le_add_right _ 2) rfl
            · cases h
              exact lpres_of_parts rfl rfl rfl rfl rfl (Nat.le_refl _) rfl
          · split at h
            · cases h
              exact lpres_of_parts rfl rfl rfl rfl rfl (Nat.le_refl _) rfl
            · rw [bind_eq_ok] at h
              obtain ⟨stm, hm, h⟩ := h
              exact lpres_trans (acn_lpres hm) (ih h)
    · cases h

theorem fstringModifierLoop_lpres {quote : Source} :
    ∀ {fuel : Nat} {st : TokenIterator} {r : ModExit × TokenIterator},
      fstringModifierLoop quote fuel st = .ok r → LPres st r.2 := by
  intro fuel
  induction fuel with
  | zero =>
    intro st r h
    cases h
  | succ n ih =>
    intro st r h
    unfold fstringModifierLoop at h
    simp only [] at h
    split at h
    · split at h
      · split at h <;> cases h <;>
          exact lpres_of_parts rfl rfl rfl rfl rfl (Nat.le_refl _) rfl
      · split at h
        · cases h
          exact lpres_of_parts rfl rfl rfl rfl rfl (Nat.le_refl _) rfl
        · rw [bind_eq_ok] at h
          obtain ⟨stm, hm, h⟩ := h
          exact lpres_trans (acn_lpres hm) (ih h)
    · cases h

theorem indentLoop_lpres :
    ∀ {fuel : Nat} {st : TokenIterator} {sw sts : Bool}
      {r : TokenIterator × Bool × Bool},
      indentLoop fuel st sw sts = .ok r → LPres st r.1 := by
  intro fuel
  induction fuel with
  | zero =>
    intro st sw sts r h
    cases h
  | succ n ih =>
    intro st sw sts r h
    unfold indentLoop at h
    simp only [] at h
    split at h
    · split at h
      · exact lpres_trans (lpres_advance st) (ih h)
      · cases h
        exact lpres_rfl st
    · cases h
      exact lpres_rfl st

theorem backslashLoop_lpres :
    ∀ {fuel : Nat} {st : TokenIterator} {fw : Bool} {r : TokenIterator × Bool},
      backslashLoop fuel st fw = .ok r → LPres st r.1 := by
  intro fuel
  induction fuel with
  | zero =>
    intro st fw r h
    cases h
  | succ n ih =>
    intro st fw r h
    unfold backslashLoop at h
    simp only [] at h
    split at h
    · split at h
      · exact lpres_trans (lpres_advance st) (ih h)
      · split at h
        · -- line-break inside the continuation
          split at h
          · split at h
            · cases h
              exact lpres_of_parts rfl rfl rfl rfl rfl (Nat.le_add_right _ 2) rfl
            · refine lpres_trans ?_ (ih h)
              exact lpres_of_parts rfl rfl rfl rfl rfl (Nat.le_add_right _ 2) rfl
          · split at h
            · cases h
              exact lpres_of_parts rfl rfl rfl rfl rfl (Nat.le_succ _) rfl
            · refine lpres_trans ?_ (ih h)
              exact lpres_of_parts rfl rfl rfl rfl rfl (Nat.le_succ _) rfl
        · cases h
          exact lpres_rfl st
    · cases h
      exact lpres_rfl st

theorem dedentLoop_suffix :
    ∀ {stack : List Source} {counter nLen : Nat} {r : List Source × Nat},
      dedentLoop stack counter nLen = .ok r → r.1 <:+ stack := by
  intro stack
  induction stack with
  | nil =>
    intro counter nLen r h
    cases h
    exact List.suffix_rfl
  | cons top rest ih =>
    intro counter nLen r h
    unfold dedentLoop at h
    split at h
    · cases h
    · split at h
      · cases h
        exact List.suffix_rfl
      · exact (ih h).trans (List.suffix_cons top rest)

theorem leave_fstring_lpres {st st' : TokenIterator} (h : leave_fstring st = .ok st') :
    LPres st st' ∧ st'.current_index = st.current_index := by
  unfold TokenIterator.leave_fstring at h
  split at h
  · split at h
    · cases h
    · cases h
      exact ⟨⟨⟨rfl, rfl, rfl, rfl, rfl, Nat.le_refl _⟩, rfl⟩, rfl⟩
  · cases h

theorem pop_fstring_quote_lpres {st st' : TokenIterator}
    (h : pop_fstring_quote st = .ok st') :
    LPres st st' ∧ st'.current_index = st.current_index := by
  unfold TokenIterator.pop_fstring_quote at h
  split at h
  · cases h
  · split at h <;> cases h <;>
      exact ⟨⟨⟨rfl, rfl, rfl, rfl, rfl, Nat.le_refl _⟩, rfl⟩, rfl⟩

theorem consume_rbrace_lpres {st st' : TokenIterator} (h : consume_rbrace st = .ok st') :
    LPres st st' ∧ st'.current_index = st.current_index := by
  unfold TokenIterator.consume_rbrace at h
  split at h
  · split at h
    · split at h <;> cases h <;>
        exact ⟨⟨⟨rfl, rfl, rfl, rfl, rfl, Nat.le_refl _⟩, rfl⟩, rfl⟩
    · cases h
      exact ⟨⟨⟨rfl, rfl, rfl, rfl, rfl, Nat.le_refl _⟩, rfl⟩, rfl⟩
  · cases h


/-! ### Scanner lemmas -/

theorem newlineScan_lpres (st : TokenIterator) : LPres st (newlineScan st).2 := by
  unfold newlineScan
  simp only []
  split
  · exact lpres_of_parts rfl rfl rfl rfl rfl (Nat.le_add_right _ 2) rfl
  · exact lpres_advance st

theorem newlineScan_ty (st : TokenIterator) :
    ((newlineScan st).1 = .nl ↔
      (0 < st.bracket_level ∨ st.fstring_state = .in_fstring_expr ∨
        st.all_whitespace_on_this_line = true)) ∧
    ((newlineScan st).1 = .newline ∨ (newlineScan st).1 = .nl) := by
  unfold newlineScan
  simp only []
  constructor
  · split <;> split <;> simp_all [advance]
  · split <;> split <;> simp

theorem endmarkerScan_cases (st : TokenIterator) :
    (st.indent_stack = [] ∧ endmarkerScan st = (.endmarker, st)) ∨
    (∃ i rest, st.indent_stack = i :: rest ∧
      endmarkerScan st = (.dedent, { st with indent_stack := rest })) := by
  unfold endmarkerScan
  cases hs : st.indent_stack with
  | nil => exact Or.inl ⟨rfl, rfl⟩
  | cons i rest => exact Or.inr ⟨i, rest, rfl, rfl⟩

theorem binaryScan_fact {st : TokenIterator} {r : TokenType × TokenIterator}
    (h : binaryScan st = .ok r) : LPres st r.2 ∧ r.1 = .number := by
  unfold binaryScan at h
  simp only [] at h
  rw [bind_eq_ok] at h
  obtain ⟨s1, h1, h⟩ := h
  rw [bind_eq_ok] at h
  obtain ⟨s2, h2, h⟩ := h
  cases h
  refine ⟨?_, rfl⟩
  refine lpres_trans ?_ (scanWhile_lpres h2)
  refine lpres_trans (lpres_trans ?_ (scanWhile_lpres h1)) ?_
  · exact lpres_of_parts rfl rfl rfl rfl rfl (Nat.le_add_right _ 2) rfl
  · split
    · split
      · exact lpres_of_parts rfl rfl rfl rfl rfl (Nat.le_add_right _ 2) rfl
      · exact lpres_advance _
    · exact lpres_rfl _

theorem octalScan_fact {st : TokenIterator} {r : TokenType × TokenIterator}
    (h : octalScan st = .ok r) : LPres st r.2 ∧ r.1 = .number := by
  unfold octalScan at h
  simp only [] at h
  rw [bind_eq_ok] at h
  obtain ⟨s1, h1, h⟩ := h
  rw [bind_eq_ok] at h
  obtain ⟨s2, h2, h⟩ := h
  cases h
  refine ⟨?_, rfl⟩
  refine lpres_trans ?_ (scanWhile_lpres h2)
  refine lpres_trans (lpres_trans ?_ (scanWhile_lpres h1)) ?_
  · exact lpres_of_parts rfl rfl rfl rfl rfl (Nat.le_add_right _ 2) rfl
  · split
    · split
      · exact lpres_of_parts rfl rfl rfl rfl rfl (Nat.le_add_right _ 2) rfl
      · exact lpres_advance _
    · exact lpres_rfl _

theorem hexScan_fact {st : TokenIterator} {r : TokenType × TokenIterator}
    (h : hexScan st = .ok r) : LPres st r.2 ∧ r.1 = .number := by
  unfold hexScan at h
  simp only [] at h
  rw [bind_eq_ok] at h
  obtain ⟨s1, h1, h⟩ := h
  rw [bind_eq_ok] at h
  obtain ⟨s2, h2, h⟩ := h
  cases h
  refine ⟨?_, rfl⟩
  refine lpres_trans ?_ (scanWhile_lpres h2)
  refine lpres_trans (lpres_trans ?_ (scanWhile_lpres h1)) ?_
  · exact lpres_of_parts rfl rfl rfl rfl rfl (Nat.le_add_right _ 2) rfl
  · split
    · split
      · exact lpres_of_parts rfl rfl rfl rfl rfl (Nat.le_add_right _ 2) rfl
      · exact lpres_advance _
    · exact lpres_rfl _

theorem decimalScan_fact {st : TokenIterator} {r : TokenType × TokenIterator}
    (h : decimalScan st = .ok r) : LPres st r.2 ∧ (r.1 = .op ∨ r.1 = .number) := by
  unfold decimalScan at h
  simp only [] at h
  rw [bind_eq_ok] at h
  obtain ⟨s1, h1, h⟩ := h
  rw [bind_eq_ok] at h
  obtain ⟨s2, h2, h⟩ := h
  rw [bind_eq_ok] at h
  obtain ⟨s3, h3, h⟩ := h
  have l1 : LPres st s1 := by
    refine lpres_trans ?_ (scanWhile_lpres h1)
    split
    · exact lpres_advance _
    · exact lpres_rfl _
  have l2 : LPres s1 s2 := by
    refine lpres_trans ?_ (scanWhile_lpres h2)
    split
    · exact lpres_advance _
    · exact lpres_rfl _
  have l3 : LPres s2 s3 := by
    refine lpres_trans ?_ (scanWhile_lpres h3)
    split
    · exact lpres_of_parts rfl rfl rfl rfl rfl (Nat.le_add_right _ 2) rfl
    · exact lpres_rfl _
  have l123 : LPres st s3 := lpres_trans (lpres_trans l1 l2) l3
  repeat' split at h
  all_goals cases h
  all_goals refine ⟨lpres_trans l123 ?_, ?_⟩
  all_goals first
    | exact Or.inl rfl
    | exact Or.inr rfl
    | exact lpres_rfl _
    | exact lpres_advance _
    | exact lpres_of_parts rfl rfl rfl rfl rfl (Nat.le_add_right _ 2) rfl
    | exact lpres_of_parts rfl rfl rfl rfl rfl (Nat.le_add_right _ 3) rfl

theorem nameScan_fact {st : TokenIterator} {r : TokenType × TokenIterator}
    (h : nameScan st = .ok r) : LPres st r.2 ∧ r.1 = .identifier := by
  unfold nameScan at h
  simp only [] at h
  split at h
  · cases h
  · split at h
    · cases h
    · cases h
      exact ⟨lpres_advance_by st _, rfl⟩


theorem fstringScan_fact :
    ∀ {rf : Nat} {st : TokenIterator} {r : TokenType × TokenIterator},
      fstringScan rf st = .ok r → LPres st r.2 ∧
        (r.1 = .fstring_start ∨ r.1 = .fstring_middle ∨ r.1 = .lbrace ∨
          r.1 = .fstring_end) := by
  intro rf
  induction rf with
  | zero =>
    intro st r h
    cases h
  | succ n ih =>
    intro st r h
    unfold fstringScan at h
    simp only [] at h
    split at h
    · rw [bind_eq_ok] at h
      obtain ⟨pq, hpq, h⟩ := h
      obtain ⟨pfx, quote⟩ := pq
      simp only [] at h
      cases h
      refine ⟨?_, Or.inl rfl⟩
      exact lpres_of_parts rfl rfl rfl rfl rfl
        ((Nat.le_add_right _ _).trans (Nat.le_add_right _ _)) rfl
    · split at h
      · split at h
        · cases h
        · rw [bind_eq_ok] at h
          obtain ⟨es, hml, h⟩ := h
          obtain ⟨ex, st'⟩ := es
          simp only [] at h
          split at h
          · exact ⟨lpres_trans (fstringMiddleLoop_lpres hml) (ih h).1, (ih h).2⟩
          · cases h
            exact ⟨fstringMiddleLoop_lpres hml, Or.inr (Or.inl rfl)⟩
      · split at h
        · cases h
          refine ⟨?_, Or.inr (Or.inr (Or.inl rfl))⟩
          exact lpres_of_parts rfl rfl rfl rfl rfl (Nat.le_succ _) rfl
        · split at h
          · split at h
            · cases h
            · rw [bind_eq_ok] at h
              obtain ⟨sp, hp, h⟩ := h
              rw [bind_eq_ok] at h
              obtain ⟨sl, hl, h⟩ := h
              cases h
              refine ⟨?_, Or.inr (Or.inr (Or.inr rfl))⟩
              refine lpres_trans ?_ (leave_fstring_lpres hl).1
              refine lpres_trans ?_ (pop_fstring_quote_lpres hp).1
              exact lpres_advance_by st _
          · split at h
            · cases h
            · rw [bind_eq_ok] at h
              obtain ⟨es, hml, h⟩ := h
              obtain ⟨ex, st'⟩ := es
              simp only [] at h
              split at h
              · split at h
                · exact ⟨lpres_trans (fstringModifierLoop_lpres hml) (ih h).1, (ih h).2⟩
                · cases h
                  exact ⟨fstringModifierLoop_lpres hml, Or.inr (Or.inl rfl)⟩
              · cases h
                exact ⟨fstringModifierLoop_lpres hml, Or.inr (Or.inl rfl)⟩

theorem stringScan_fact {rf : Nat} {st : TokenIterator} {r : TokenType × TokenIterator}
    (h : stringScan rf st = .ok r) :
    LPres st r.2 ∧ (r.1 = .string ∨ r.1 = .fstring_start ∨ r.1 = .fstring_middle ∨
      r.1 = .lbrace ∨ r.1 = .fstring_end) := by
  unfold stringScan at h
  rw [bind_eq_ok] at h
  obtain ⟨pq, hpq, h⟩ := h
  obtain ⟨pfx, quote⟩ := pq
  simp only [] at h
  split at h
  · have hf := fstringScan_fact h
    exact ⟨hf.1, Or.inr hf.2⟩
  · rw [bind_eq_ok] at h
    obtain ⟨sl, hl, h⟩ := h
    cases h
    refine ⟨?_, Or.inl rfl⟩
    refine lpres_trans ?_ (stringLoop_lpres hl)
    exact lpres_of_parts rfl rfl rfl rfl rfl
      ((Nat.le_add_right _ _).trans (Nat.le_add_right _ _)) rfl


theorem pyIn_nil (w : Source) : pyIn [] w = true := by
  unfold pyIn
  rw [List.any_eq_true]
  refine ⟨0, List.mem_range.mpr (Nat.succ_pos _), ?_⟩
  rw [List.drop_zero]
  cases w <;> rfl

theorem indentScan_fact {st : TokenIterator} {r : Option TokenType × TokenIterator}
    (h : indentScan st = .ok r) :
    Pres0 st r.2 ∧ StackEv st r.2 ∧
    (r.1 = none → r.2.indent_stack = st.indent_stack) ∧
    (∀ ty, r.1 = some ty → ty = .whitespace ∨ ty = .indent) := by
  unfold indentScan at h
  simp only [] at h
  rw [bind_eq_ok] at h
  obtain ⟨tr, hloop, h⟩ := h
  obtain ⟨stL, sw, sts⟩ := tr
  simp only [] at h
  have lp : LPres st stL := indentLoop_lpres hloop
  repeat' split at h
  all_goals try (rw [bind_eq_ok] at h; obtain ⟨dc, hdl, h⟩ := h)
  all_goals cases h
  all_goals refine ⟨⟨lp.1.source_eq, lp.1.prev_index_eq, lp.1.prev_line_eq,
    lp.1.prev_off_eq, lp.1.prev_token_eq, lp.1.current_mono⟩, ?_, ?_, ?_⟩
  all_goals first
    | exact Or.inl lp.2
    | exact fun _ => lp.2
    | exact fun hn => Option.noConfusion hn
    | exact fun ty hty => Option.noConfusion hty
    | exact fun ty hty => Or.inl (Option.some.inj hty).symm
    | exact fun ty hty => Or.inr (Option.some.inj hty).symm
    | (have hs := dedentLoop_suffix hdl
       rw [lp.2] at hs
       exact Or.inr (Or.inr hs))
    | (rename_i hgt hguard
       refine Or.inr (Or.inl ⟨_, by rw [lp.2], ?_⟩)
       intro T hT
       rw [Option.mem_def] at hT
       rw [← lp.2] at hT
       cases hstk : stL.indent_stack with
       | nil =>
         rw [hstk] at hT
         cases hT
       | cons a l =>
         rw [hstk] at hT
         rw [hstk] at hgt hguard
         simp only [List.headD_cons] at hgt hguard
         cases hT
         refine ⟨hgt, ?_⟩
         by_cases ha : 0 < T.length
         · by_contra hc
           exact hguard ⟨ha, hc⟩
         · have hTnil : T = [] := List.length_eq_zero.mp (by omega)
           rw [hTnil]
           exact pyIn_nil _)


theorem dispatchLiteral_fact {c : Char} {st : TokenIterator}
    {r : TokenType × TokenIterator} (h : dispatchLiteral c st = .ok r) :
    Pres0 st r.2 ∧ r.2.indent_stack = st.indent_stack ∧
      r.1 ≠ .endmarker ∧ r.1 ≠ .newline ∧ r.1 ≠ .nl ∧ r.1 ≠ .dedent := by
  unfold dispatchLiteral numberDispatch at h
  split at h
  · split at h
    · obtain ⟨hl, hty⟩ := binaryScan_fact h
      refine ⟨hl.1, hl.2, ?_, ?_, ?_, ?_⟩ <;> rw [hty] <;> decide
    · split at h
      · obtain ⟨hl, hty⟩ := octalScan_fact h
        refine ⟨hl.1, hl.2, ?_, ?_, ?_, ?_⟩ <;> rw [hty] <;> decide
      · split at h
        · obtain ⟨hl, hty⟩ := hexScan_fact h
          refine ⟨hl.1, hl.2, ?_, ?_, ?_, ?_⟩ <;> rw [hty] <;> decide
        · obtain ⟨hl, hty⟩ := decimalScan_fact h
          refine ⟨hl.1, hl.2, ?_, ?_, ?_, ?_⟩ <;> rcases hty with h' | h' <;>
            rw [h'] <;> decide
  · split at h
    · obtain ⟨hl, hty⟩ := stringScan_fact h
      refine ⟨hl.1, hl.2, ?_, ?_, ?_, ?_⟩ <;> rcases hty with h' | h' | h' | h' | h' <;>
        rw [h'] <;> decide
    · obtain ⟨hl, hty⟩ := nameScan_fact h
      refine ⟨hl.1, hl.2, ?_, ?_, ?_, ?_⟩ <;> rw [hty] <;> decide

theorem dispatchBrackets_fact {c : Char} {st : TokenIterator}
    {r : TokenType × TokenIterator} (h : dispatchBrackets c st = .ok r) :
    Pres0 st r.2 ∧ r.2.indent_stack = st.indent_stack ∧
      r.1 ≠ .endmarker ∧ r.1 ≠ .newline ∧ r.1 ≠ .nl ∧ r.1 ≠ .dedent := by
  unfold dispatchBrackets at h
  repeat' (first
    | split at h
    | (rw [bind_eq_ok] at h; obtain ⟨x, hx, h⟩ := h; try simp only [] at h)
    | (simp only [] at h))
  all_goals try cases h
  all_goals first
    | exact dispatchLiteral_fact h
    | (refine ⟨?_, ?_, fun hc => TokenType.noConfusion hc,
         fun hc => TokenType.noConfusion hc, fun hc => TokenType.noConfusion hc,
         fun hc => TokenType.noConfusion hc⟩ <;>
       first
         | rfl
         | exact ⟨rfl, rfl, rfl, rfl, rfl, Nat.le_refl _⟩
         | exact ⟨rfl, rfl, rfl, rfl, rfl, Nat.le_succ _⟩
         | exact ⟨rfl, rfl, rfl, rfl, rfl, Nat.le_add_right _ 2⟩
         | (have hp := pres0_trans (pres0_advance st) (consume_rbrace_lpres hx).1.1;
            exact ⟨hp.source_eq, hp.prev_index_eq, hp.prev_line_eq, hp.prev_off_eq,
              hp.prev_token_eq, hp.current_mono⟩)
         | exact (consume_rbrace_lpres hx).1.2)

theorem dispatchScan_fact {c : Char} {st : TokenIterator}
    {r : TokenType × TokenIterator} (h : dispatchScan c st = .ok r) :
    Pres0 st r.2 ∧ r.2.indent_stack = st.indent_stack ∧
      r.1 ≠ .endmarker ∧ r.1 ≠ .newline ∧ r.1 ≠ .nl ∧ r.1 ≠ .dedent := by
  unfold dispatchScan at h
  repeat' (first
    | split at h
    | (rw [bind_eq_ok] at h; obtain ⟨x, hx, h⟩ := h; try simp only [] at h)
    | (simp only [] at h))
  all_goals try cases h
  all_goals first
    | exact dispatchBrackets_fact h
    | (refine ⟨?_, ?_, fun hc => TokenType.noConfusion hc,
         fun hc => TokenType.noConfusion hc, fun hc => TokenType.noConfusion hc,
         fun hc => TokenType.noConfusion hc⟩ <;>
       first
         | rfl
         | exact ⟨rfl, rfl, rfl, rfl, rfl, Nat.le_refl _⟩
         | exact ⟨rfl, rfl, rfl, rfl, rfl, Nat.le_succ _⟩
         | exact ⟨rfl, rfl, rfl, rfl, rfl, Nat.le_add_right _ 2⟩
         | exact ⟨rfl, rfl, rfl, rfl, rfl, Nat.le_add_right _ 3⟩
         | exact (scanWhile_lpres hx).1
         | exact (scanWhile_lpres hx).2)

/-! ### Step-level lemmas -/

theorem is_newlineFn_fact (st : TokenIterator) :
    Pres0 st (is_newlineFn st).2 ∧ (is_newlineFn st).2.indent_stack = st.indent_stack ∧
    (is_newlineFn st).2.bracket_level = st.bracket_level ∧
    (is_newlineFn st).2.fstring_state = st.fstring_state ∧
    (is_newlineFn st).2.all_whitespace_on_this_line = st.all_whitespace_on_this_line ∧
    (is_newlineFn st).2.dedent_counter = st.dedent_counter := by
  unfold is_newlineFn
  split
  · exact ⟨pres0_rfl st, rfl, rfl, rfl, rfl, rfl⟩
  · split
    · exact ⟨pres0_advance st, rfl, rfl, rfl, rfl, rfl⟩
    · exact ⟨pres0_rfl st, rfl, rfl, rfl, rfl, rfl⟩

theorem is_newlineFn_false {st : TokenIterator} (h : ¬ (is_newlineFn st).1 = true) :
    (is_newlineFn st).2 = st := by
  by_cases h1 : st.charAtD = '\n'
  · exact absurd (by unfold is_newlineFn; rw [if_pos h1]) h
  · by_cases h2 : st.charAtD = '\r' ∧ st.current_index + 1 < st.source.length ∧
        st.charAt1 (st.current_index + 1) = '\n'
    · exact absurd (by unfold is_newlineFn; rw [if_neg h1, if_pos h2]) h
    · unfold is_newlineFn
      rw [if_neg h1, if_neg h2]

theorem make_token_fact (st : TokenIterator) (ty : TokenType) :
    (st.make_token ty).1.type = ty ∧
    (st.make_token ty).1.start_index = st.prev_index ∧
    (st.make_token ty).1.end_index = st.current_index ∧
    (st.make_token ty).1.start_line = st.prev_line_number ∧
    (st.make_token ty).1.start_col = st.prev_byte_offset ∧
    (st.make_token ty).1.end_line = st.line_number ∧
    (st.make_token ty).1.end_col = st.byte_offset ∧
    (st.make_token ty).2.prev_token = some (st.make_token ty).1 ∧
    (st.make_token ty).2.source = st.source ∧
    (st.make_token ty).2.current_index = st.current_index ∧
    (st.make_token ty).2.indent_stack = st.indent_stack ∧
    (st.make_token ty).2.dedent_counter = st.dedent_counter ∧
    EQinv (st.make_token ty).2 := by
  by_cases h1 : ty = .newline ∨ ty = .nl
  · simp [TokenIterator.make_token, EQinv, h1, next_line]
  · by_cases h2 : ty = .whitespace ∨ ty = .comment
    · simp [TokenIterator.make_token, EQinv, h1, h2]
    · simp [TokenIterator.make_token, EQinv, h1, h2]

/-- The line/column bookkeeping of `make_token`: the `prev_*` position
after the call is the token end, bumped to the next line for NEWLINE/NL
tokens. -/
theorem make_token_pos (st : TokenIterator) (ty : TokenType) :
    (st.make_token ty).2.prev_index = st.current_index ∧
    (if ty = .newline ∨ ty = .nl then
        (st.make_token ty).2.prev_line_number = st.line_number + 1 ∧
        (st.make_token ty).2.prev_byte_offset = 0
      else
        (st.make_token ty).2.prev_line_number = st.line_number ∧
        (st.make_token ty).2.prev_byte_offset = st.byte_offset) := by
  by_cases h1 : ty = .newline ∨ ty = .nl
  · simp [TokenIterator.make_token, h1, next_line]
  · by_cases h2 : ty = .whitespace ∨ ty = .comment
    · simp [TokenIterator.make_token, h1, h2]
    · simp [TokenIterator.make_token, h1, h2]

theorem endmarkerScan_master (st : TokenIterator) {ty : TokenType} {st' : TokenIterator}
    (hpair : endmarkerScan st = (ty, st')) :
    Pres0 st st' ∧ StackEv st st' ∧
    (ty = .endmarker → st' = st ∧ st.indent_stack = []) ∧
    (ty = .endmarker ∨ ty = .dedent) ∧ st'.current_index = st.current_index := by
  rcases endmarkerScan_cases st with ⟨hs, he⟩ | ⟨i, rest, hs, he⟩ <;> rw [he] at hpair <;>
    cases hpair
  · exact ⟨pres0_rfl st, Or.inl rfl, fun _ => ⟨rfl, hs⟩, Or.inl rfl, rfl⟩
  · refine ⟨⟨rfl, rfl, rfl, rfl, rfl, Nat.le_refl _⟩, ?_,
      fun hc => TokenType.noConfusion hc, Or.inr rfl, rfl⟩
    refine Or.inr (Or.inr ?_)
    rw [hs]
    exact ⟨[i], rfl⟩

theorem newlineScan_master (st : TokenIterator) {ty : TokenType} {st' : TokenIterator}
    (hpair : newlineScan st = (ty, st')) :
    Pres0 st st' ∧ st'.indent_stack = st.indent_stack ∧ ty ≠ .endmarker ∧
    (ty = .nl ↔ (0 < st.bracket_level ∨ st.fstring_state = .in_fstring_expr ∨
      st.all_whitespace_on_this_line = true)) ∧
    (ty = .newline ∨ ty = .nl) := by
  have h1 := newlineScan_lpres st
  have h2 := newlineScan_ty st
  rw [hpair] at h1 h2
  refine ⟨h1.1, h1.2, ?_, h2.1, h2.2⟩
  intro hc
  rcases h2.2 with he | he <;> rw [hc] at he <;> exact TokenType.noConfusion he

/-- One pull, decomposed into its scan phase and the trailing
`make_token`. -/
theorem nextToken_shape {st : TokenIterator} {t : Token} {st' : TokenIterator}
    (h : nextToken st = .ok (some (t, st'))) :
    ∃ ty st₁, scanNext st = .ok (some (ty, st₁)) ∧ st₁.make_token ty = (t, st') := by
  unfold nextToken at h
  rw [bind_eq_ok] at h
  obtain ⟨o, ho, h⟩ := h
  rcases o with _ | ⟨ty, st₁⟩
  · exact Option.noConfusion (Except.ok.inj h)
  · exact ⟨ty, st₁, ho, Option.some.inj (Except.ok.inj h)⟩

/-- After an ENDMARKER has been recorded, the iterator signals
`StopIteration`. -/
theorem nextToken_stop {st : TokenIterator}
    (hp : st.prev_token.map Token.type = some .endmarker) : nextToken st = .ok none := by
  have hs : scanNext st = .ok none := by
    unfold scanNext
    rw [if_pos hp]
  unfold nextToken
  rw [hs]
  rfl

/-- Master step lemma for the in-source scan tail: `prev_*` fields and
the source are preserved, the indent stack evolves by the three legal
moves, the kind is never ENDMARKER, and a NEWLINE/NL kind is NL exactly
under the three conditions of `TokenIterator.newline`. -/
theorem scanNextCore_master {st : TokenIterator} {ty : TokenType} {st' : TokenIterator}
    (h : scanNextCore st = .ok (some (ty, st'))) :
    Pres0 st st' ∧ StackEv st st' ∧ ty ≠ .endmarker ∧
    ((ty = .newline ∨ ty = .nl) →
      (ty = .nl ↔ (0 < st.bracket_level ∨ st.fstring_state = .in_fstring_expr ∨
        st.all_whitespace_on_this_line = true))) := by
  delta scanNextCore at h
  simp only [] at h
  split at h
  · -- comment run
    rw [bind_eq_ok] at h
    obtain ⟨x, hx, h⟩ := h
    have hpair := Option.some.inj (Except.ok.inj h)
    cases hpair
    have lp := scanWhile_lpres hx
    refine ⟨lp.1, Or.inl lp.2, fun hc => TokenType.noConfusion hc, ?_⟩
    intro hty
    rcases hty with h' | h' <;> exact TokenType.noConfusion h'
  · split at h
    · -- pending dedents
      have hpair := Option.some.inj (Except.ok.inj h)
      cases hpair
      refine ⟨⟨rfl, rfl, rfl, rfl, rfl, Nat.le_refl _⟩, Or.inl rfl,
        fun hc => TokenType.noConfusion hc, ?_⟩
      intro hty
      rcases hty with h' | h' <;> exact TokenType.noConfusion h'
    · split at h
      · -- a real LF / CRLF
        have hpair := Option.some.inj (Except.ok.inj h)
        have nm := newlineScan_master (is_newlineFn st).2 hpair
        have fct := is_newlineFn_fact st
        refine ⟨pres0_trans fct.1 nm.1, Or.inl (nm.2.1.trans fct.2.1),
          fun hty => absurd hty nm.2.2.1, ?_⟩
        intro hty
        have hiff := nm.2.2.2.1
        rw [fct.2.2.1, fct.2.2.2.1, fct.2.2.2.2.1] at hiff
        exact hiff
      · -- backslash / CR / indent / dispatch: the pattern state is unmoved
        rename_i hns
        rw [is_newlineFn_false hns] at h
        split at h
        · -- line continuation backslash
          try simp only [] at h
          split at h
          · exact Except.noConfusion h
          · rw [bind_eq_ok] at h
            obtain ⟨x, hx, h⟩ := h
            obtain ⟨stB, fw⟩ := x
            try simp only [] at h
            split at h
            · exact Except.noConfusion h
            · have hpair := Option.some.inj (Except.ok.inj h)
              cases hpair
              have lp := backslashLoop_lpres hx
              refine ⟨pres0_trans (pres0_advance st) lp.1, Or.inl lp.2,
                fun hc => TokenType.noConfusion hc, ?_⟩
              intro hty
              rcases hty with h' | h' <;> exact TokenType.noConfusion h'
        · split at h
          · -- bare CR
            try simp only [] at h
            split at h
            · split at h
              · exact Except.noConfusion h
              · have hpair := Option.some.inj (Except.ok.inj h)
                cases hpair
                refine ⟨⟨rfl, rfl, rfl, rfl, rfl, Nat.le_add_right _ 2⟩, Or.inl rfl,
                  fun hc => TokenType.noConfusion hc, ?_⟩
                intro hty
                rcases hty with h' | h' <;> exact TokenType.noConfusion h'
            · have hpair := Option.some.inj (Except.ok.inj h)
              have nm := newlineScan_master st.advance hpair
              exact ⟨pres0_trans (pres0_advance st) nm.1, Or.inl nm.2.1,
                fun hty => absurd hty nm.2.2.1, fun _ => nm.2.2.2.1⟩
          · -- indentation attempt then the dispatch chain
            split at h
            · -- column-zero state: the indent routine runs first
              rw [bind_eq_ok] at h
              obtain ⟨x, hx, h⟩ := h
              obtain ⟨iopt, stI⟩ := x
              try simp only [] at h
              split at h
              · -- the indent routine produced a token
                have hpair := Option.some.inj (Except.ok.inj h)
                cases hpair
                have fct := indentScan_fact hx
                refine ⟨fct.1, fct.2.1, ?_, ?_⟩
                · intro hty
                  rcases fct.2.2.2 ty rfl with he | he <;> rw [he] at hty <;>
                    exact TokenType.noConfusion hty
                · intro hty
                  rcases fct.2.2.2 ty rfl with he | he <;> rw [he] at hty <;>
                    rcases hty with h' | h' <;> exact TokenType.noConfusion h'
              · -- the dispatch chain after a silent indent attempt
                rw [map_eq_ok] at h
                obtain ⟨pr, hpr, hmap⟩ := h
                have hpr2 : pr = (ty, st') := Option.some.inj hmap
                subst hpr2
                have fct := dispatchScan_fact hpr
                have ifct := indentScan_fact hx
                have hstke : stI.indent_stack = st.indent_stack := ifct.2.2.1 rfl
                refine ⟨pres0_trans ifct.1 fct.1, Or.inl (fct.2.1.trans hstke),
                  fun hty => absurd hty fct.2.2.1, ?_⟩
                intro hty
                rcases hty with h' | h' <;>
                  first
                    | exact absurd h' fct.2.2.2.1
                    | exact absurd h' fct.2.2.2.2.1
            · -- mid-line: straight to the dispatch chain
              rw [bind_eq_ok] at h
              obtain ⟨x, hx, h⟩ := h
              have hx2 := Except.ok.inj hx
              subst hx2
              try simp only [] at h
              rw [map_eq_ok] at h
              obtain ⟨pr, hpr, hmap⟩ := h
              have hpr2 : pr = (ty, st') := Option.some.inj hmap
              subst hpr2
              have fct := dispatchScan_fact hpr
              refine ⟨fct.1, Or.inl fct.2.1, fun hty => absurd hty fct.2.2.1, ?_⟩
              intro hty
              rcases hty with h' | h' <;>
                first
                  | exact absurd h' fct.2.2.2.1
                  | exact absurd h' fct.2.2.2.2.1

/-- Master step lemma for the scan phase: `prev_*` fields and the source
are preserved, the indent stack evolves by the three legal moves, an
ENDMARKER kind certifies the terminal entry state with an empty stack and
an unmoved iterator, and a NEWLINE/NL kind is NL exactly under the three
conditions of `TokenIterator.newline`. -/
theorem scanNext_master {st : TokenIterator} {ty : TokenType} {st' : TokenIterator}
    (h : scanNext st = .ok (some (ty, st'))) :
    Pres0 st st' ∧ StackEv st st' ∧
    (ty = .endmarker → Terminal st ∧ st' = st ∧ st.indent_stack = []) ∧
    ((ty = .newline ∨ ty = .nl) →
      (ty = .nl ↔ (0 < st.bracket_level ∨ st.fstring_state = .in_fstring_expr ∨
        st.all_whitespace_on_this_line = true))) := by
  delta scanNext at h
  split at h
  · exact Option.noConfusion (Except.ok.inj h)
  · split at h
    · -- cursor exactly at end of source
      rename_i hP hLen
      split at h
      · -- nothing emitted yet: endmarker routine
        rename_i hprev
        have hpair := Option.some.inj (Except.ok.inj h)
        have em := endmarkerScan_master st hpair
        refine ⟨em.1, em.2.1, ?_, ?_⟩
        · intro hty
          obtain ⟨he1, he2⟩ := em.2.2.1 hty
          exact ⟨⟨Nat.le_of_eq hLen.symm, fun _ => Or.inl hprev⟩, he1, he2⟩
        · intro hty
          rcases em.2.2.2.1 with he | he <;> rcases hty with h' | h' <;> rw [he] at h' <;>
            exact TokenType.noConfusion h'
      · rename_i t hprev
        split at h
        · -- previous token ends the line: endmarker routine
          rename_i hcond
          have hpair := Option.some.inj (Except.ok.inj h)
          have em := endmarkerScan_master st hpair
          refine ⟨em.1, em.2.1, ?_, ?_⟩
          · intro hty
            obtain ⟨he1, he2⟩ := em.2.2.1 hty
            exact ⟨⟨Nat.le_of_eq hLen.symm, fun _ => Or.inr ⟨t, hprev, hcond⟩⟩, he1, he2⟩
          · intro hty
            rcases em.2.2.2.1 with he | he <;> rcases hty with h' | h' <;> rw [he] at h' <;>
              exact TokenType.noConfusion h'
        · -- synthesized trailing newline
          have hpair := Option.some.inj (Except.ok.inj h)
          have nm := newlineScan_master st hpair
          exact ⟨nm.1, Or.inl nm.2.1, fun hty => absurd hty nm.2.2.1, fun _ => nm.2.2.2.1⟩
    · split at h
      · -- cursor past the end of source
        rename_i hP hLen hGt
        have hpair := Option.some.inj (Except.ok.inj h)
        have em := endmarkerScan_master st hpair
        refine ⟨em.1, em.2.1, ?_, ?_⟩
        · intro hty
          obtain ⟨he1, he2⟩ := em.2.2.1 hty
          exact ⟨⟨Nat.le_of_lt hGt, fun heq => absurd heq (Nat.ne_of_gt hGt)⟩, he1, he2⟩
        · intro hty
          rcases em.2.2.2.1 with he | he <;> rcases hty with h' | h' <;> rw [he] at h' <;>
            exact TokenType.noConfusion h'
      · split at h
        · -- inside the f-string sub-machine
          rw [map_eq_ok] at h
          obtain ⟨pr, hpr, hmap⟩ := h
          have hpr2 : pr = (ty, st') := Option.some.inj hmap
          subst hpr2
          have hf := fstringScan_fact hpr
          refine ⟨hf.1.1, Or.inl hf.1.2, ?_, ?_⟩
          · intro hty
            rcases hf.2 with he | he | he | he <;> rw [hty] at he <;>
              exact TokenType.noConfusion he
          · intro hty
            rcases hty with h' | h' <;> rcases hf.2 with he | he | he | he <;>
              rw [h'] at he <;> exact TokenType.noConfusion he
        · -- the in-source tail
          have core := scanNextCore_master h
          exact ⟨core.1, core.2.1, fun hty => absurd hty core.2.2.1, core.2.2.2⟩

/-! ### Terminal-phase lemmas -/

theorem scanNext_terminal {st : TokenIterator} (hT : Terminal st) (hP : PrevTokOk st) :
    scanNext st = .ok (some (endmarkerScan st)) := by
  delta scanNext
  split
  · rename_i hc
    exfalso
    cases hpt : st.prev_token with
    | none => rw [hpt] at hc; exact Option.noConfusion hc
    | some t => rw [hpt] at hc; exact hP t hpt (Option.some.inj hc)
  · split
    · rename_i hc hLen
      split
      · rfl
      · rename_i t hprev
        split
        · rfl
        · rename_i hcond
          exfalso
          rcases hT.2 hLen with hnone | ⟨t2, hprev2, hdisj⟩
          · rw [hprev] at hnone; exact Option.noConfusion hnone
          · rw [hprev] at hprev2
            cases Option.some.inj hprev2
            exact hcond hdisj
    · split
      · rfl
      · rename_i hc hLen hGt
        exact absurd (Nat.lt_of_le_of_ne hT.1 (fun he => hLen he.symm)) hGt

theorem scanNextCore_ne_none {st : TokenIterator} : scanNextCore st ≠ .ok none := by
  intro h
  delta scanNextCore at h
  simp only [] at h
  repeat' (first
    | split at h
    | (rw [bind_eq_ok] at h; obtain ⟨x, hx, h⟩ := h; try simp only [] at h)
    | (rw [map_eq_ok] at h; obtain ⟨x, hx, h⟩ := h; try simp only [] at h))
  all_goals first
    | exact Except.noConfusion h
    | exact Option.noConfusion (Except.ok.inj h)
    | exact Option.noConfusion h

theorem scanNext_none {st : TokenIterator} (h : scanNext st = .ok none) :
    st.prev_token.map Token.type = some .endmarker := by
  delta scanNext at h
  split at h
  · rename_i hc
    exact hc
  · split at h
    · split at h
      · exact absurd (Except.ok.inj h) (fun hc => Option.noConfusion hc)
      · split at h <;> exact absurd (Except.ok.inj h) (fun hc => Option.noConfusion hc)
    · split at h
      · exact absurd (Except.ok.inj h) (fun hc => Option.noConfusion hc)
      · split at h
        · rw [map_eq_ok] at h
          obtain ⟨a, _, hmap⟩ := h
          exact Option.noConfusion hmap
        · exact absurd h scanNextCore_ne_none

theorem nextToken_none {st : TokenIterator} (h : nextToken st = .ok none) :
    st.prev_token.map Token.type = some .endmarker := by
  unfold nextToken at h
  rw [bind_eq_ok] at h
  obtain ⟨o, ho, h2⟩ := h
  cases o with
  | none => exact scanNext_none ho
  | some p =>
    obtain ⟨ty, st₁⟩ := p
    exact absurd (Except.ok.inj h2) (fun hc => Option.noConfusion hc)

theorem nextToken_of_scan {st : TokenIterator} {ty : TokenType} {st₁ : TokenIterator}
    (h : scanNext st = .ok (some (ty, st₁))) :
    nextToken st = .ok (some (st₁.make_token ty)) := by
  unfold nextToken
  rw [h]
  rfl

theorem tokenizeFuel_step {n : Nat} {st : TokenIterator} {t : Token} {st' : TokenIterator}
    {ts : List Token} {sf : TokenIterator}
    (hnt : nextToken st = .ok (some (t, st')))
    (h : tokenizeFuel (n + 1) st = .ok (ts, sf)) :
    ∃ ts1, tokenizeFuel n st' = .ok (ts1, sf) ∧ ts = t :: ts1 := by
  unfold tokenizeFuel at h
  rw [hnt, bind_ok_l] at h
  try simp only [] at h
  rw [bind_eq_ok] at h
  obtain ⟨p, hrec, h⟩ := h
  obtain ⟨ts1, sf1⟩ := p
  try simp only [] at h
  have h2 := Except.ok.inj h
  have hfst : t :: ts1 = ts := congrArg Prod.fst h2
  have hsnd : sf1 = sf := congrArg Prod.snd h2
  exact ⟨ts1, hsnd ▸ hrec, hfst.symm⟩

theorem tokenizeFuel_halt {n : Nat} {st : TokenIterator} {ts : List Token}
    {sf : TokenIterator} (hnt : nextToken st = .ok none)
    (h : tokenizeFuel (n + 1) st = .ok (ts, sf)) : ts = [] ∧ sf = st := by
  unfold tokenizeFuel at h
  rw [hnt, bind_ok_l] at h
  try simp only [] at h
  have h2 := Except.ok.inj h
  have hfst : ([] : List Token) = ts := congrArg Prod.fst h2
  have hsnd : st = sf := congrArg Prod.snd h2
  exact ⟨hfst.symm, hsnd.symm⟩

theorem tokenizeFuel_stopped {st : TokenIterator}
    (hp : st.prev_token.map Token.type = some .endmarker) :
    ∀ {fuel : Nat} {ts : List Token} {sf : TokenIterator},
      tokenizeFuel fuel st = .ok (ts, sf) → ts = [] ∧ sf = st := by
  intro fuel ts sf h
  cases fuel with
  | zero => exact Except.noConfusion h
  | succ n => exact tokenizeFuel_halt (nextToken_stop hp) h

theorem make_token_fact2 {st : TokenIterator} {ty : TokenType} {t : Token}
    {st' : TokenIterator} (hmk : st.make_token ty = (t, st')) :
    t.type = ty ∧ t.start_index = st.prev_index ∧ t.end_index = st.current_index ∧
    t.start_line = st.prev_line_number ∧ t.start_col = st.prev_byte_offset ∧
    t.end_line = st.line_number ∧ t.end_col = st.byte_offset ∧
    st'.prev_token = some t ∧ st'.source = st.source ∧
    st'.current_index = st.current_index ∧ st'.indent_stack = st.indent_stack ∧
    st'.dedent_counter = st.dedent_counter ∧ EQinv st' := by
  have mkf := make_token_fact st ty
  rw [hmk] at mkf
  exact mkf

theorem make_token_link {st : TokenIterator} {ty : TokenType} {t : Token}
    {st' : TokenIterator} (hmk : st.make_token ty = (t, st')) :
    st'.prev_index = t.end_index ∧
    (if t.type = .newline ∨ t.type = .nl then
        st'.prev_line_number = t.end_line + 1 ∧ st'.prev_byte_offset = 0
      else
        st'.prev_line_number = t.end_line ∧ st'.prev_byte_offset = t.end_col) := by
  have pos := make_token_pos st ty
  have mkf := make_token_fact2 hmk
  rw [hmk] at pos
  constructor
  · rw [mkf.2.2.1]
    exact pos.1
  · have hty : (t.type = .newline ∨ t.type = .nl) ↔ (ty = .newline ∨ ty = .nl) := by
      rw [mkf.1]
    by_cases hc : t.type = .newline ∨ t.type = .nl
    · rw [if_pos hc]
      rw [if_pos (hty.mp hc)] at pos
      refine ⟨?_, pos.2.2⟩
      rw [mkf.2.2.2.2.2.1]
      exact pos.2.1
    · rw [if_neg hc]
      rw [if_neg (fun h2 => hc (hty.mpr h2))] at pos
      refine ⟨?_, ?_⟩
      · rw [mkf.2.2.2.2.2.1]
        exact pos.2.1
      · rw [mkf.2.2.2.2.2.2.1]
        exact pos.2.2

/-- The whole terminal phase: from a state that enters the `endmarker`
routine, the run emits one DEDENT per indent-stack entry, then the
ENDMARKER, and then stops, never moving the cursor again. -/
theorem terminal_run :
    ∀ (stk : List Source), ∀ (st : TokenIterator), st.indent_stack = stk → Terminal st →
      PrevTokOk st → ∀ (fuel : Nat) (ts : List Token) (sf : TokenIterator),
      tokenizeFuel fuel st = .ok (ts, sf) →
      ts.map Token.type = List.replicate stk.length .dedent ++ [.endmarker] ∧
      sf.indent_stack = [] ∧ nextToken sf = .ok none ∧
      sf.current_index = st.current_index ∧ sf.source = st.source := by
  intro stk
  induction stk with
  | nil =>
    intro st hstk hT hP fuel ts sf h
    cases fuel with
    | zero => exact Except.noConfusion h
    | succ n =>
      have hes : endmarkerScan st = (.endmarker, st) := by
        unfold endmarkerScan
        rw [hstk]
      have hsc0 := scanNext_terminal hT hP
      rw [hes] at hsc0
      have hnt := nextToken_of_scan hsc0
      rcases hmk : st.make_token .endmarker with ⟨t0, st0⟩
      rw [hmk] at hnt
      obtain ⟨ts1, hrec, hts⟩ := tokenizeFuel_step hnt h
      have mkf := make_token_fact2 hmk
      have hp0 : st0.prev_token.map Token.type = some .endmarker := by
        rw [mkf.2.2.2.2.2.2.2.1]
        simp [mkf.1]
      obtain ⟨hts1, hsf⟩ := tokenizeFuel_stopped hp0 hrec
      subst hts hts1 hsf
      refine ⟨?_, ?_, nextToken_stop hp0, ?_, ?_⟩
      · simp [mkf.1]
      · rw [mkf.2.2.2.2.2.2.2.2.2.2.1, hstk]
      · exact mkf.2.2.2.2.2.2.2.2.2.1
      · exact mkf.2.2.2.2.2.2.2.2.1
  | cons i rest ih =>
    intro st hstk hT hP fuel ts sf h
    cases fuel with
    | zero => exact Except.noConfusion h
    | succ n =>
      have hes : endmarkerScan st = (.dedent, { st with indent_stack := rest }) := by
        unfold endmarkerScan
        rw [hstk]
      have hsc0 := scanNext_terminal hT hP
      rw [hes] at hsc0
      have hnt := nextToken_of_scan hsc0
      rcases hmk : TokenIterator.make_token { st with indent_stack := rest } .dedent
        with ⟨t0, st0⟩
      rw [hmk] at hnt
      obtain ⟨ts1, hrec, hts⟩ := tokenizeFuel_step hnt h
      have mkf := make_token_fact2 hmk
      have hprev0 : st0.prev_token = some t0 := mkf.2.2.2.2.2.2.2.1
      have hP0 : PrevTokOk st0 := by
        intro t2 h2
        rw [hprev0] at h2
        cases Option.some.inj h2
        rw [mkf.1]
        exact fun hc => TokenType.noConfusion hc
      have hT0 : Terminal st0 := by
        constructor
        · have hs := mkf.2.2.2.2.2.2.2.2.1
          have hc := mkf.2.2.2.2.2.2.2.2.2.1
          rw [hs, hc]
          exact hT.1
        · intro _
          exact Or.inr ⟨t0, hprev0, Or.inr (Or.inr mkf.1)⟩
      have hstk0 : st0.indent_stack = rest := mkf.2.2.2.2.2.2.2.2.2.2.1
      obtain ⟨hmap, hsf1, hnext, hcur, hsrc⟩ := ih st0 hstk0 hT0 hP0 n ts1 sf hrec
      subst hts
      refine ⟨?_, hsf1, hnext, ?_, ?_⟩
      · simp only [List.map_cons, hmap, mkf.1, List.length_cons, List.replicate_succ,
          List.cons_append]
      · rw [hcur]
        exact mkf.2.2.2.2.2.2.2.2.2.1
      · rw [hsrc]
        exact mkf.2.2.2.2.2.2.2.2.1

/-- Shape of every successful run: the regular tokens, then the terminal
phase reached at some pull count `n`, draining the indent stack into `k`
DEDENTs and one final ENDMARKER, after which the iterator stops. -/
theorem tokenize_shape_aux :
    ∀ (fuel : Nat) (st : TokenIterator) (ts : List Token) (sf : TokenIterator),
      PrevTokOk st → tokenizeFuel fuel st = .ok (ts, sf) →
      ∃ front k n stT,
        ts.map Token.type = front ++ List.replicate k .dedent ++ [.endmarker] ∧
        .endmarker ∉ front ∧ sf.indent_stack = [] ∧ nextToken sf = .ok none ∧
        stepN n st = .ok stT ∧ Terminal stT ∧ stT.indent_stack.length = k ∧
        n = front.length ∧ st.source.length ≤ sf.current_index ∧ sf.source = st.source := by
  intro fuel
  induction fuel with
  | zero =>
    intro st ts sf hP h
    exact Except.noConfusion h
  | succ m ih =>
    intro st ts sf hP h
    by_cases hT : Terminal st
    · obtain ⟨hmap, hsf, hnext, hcur, hsrc⟩ := terminal_run st.indent_stack st rfl hT hP _ _ _ h
      refine ⟨[], st.indent_stack.length, 0, st, ?_, ?_, hsf, hnext, rfl, hT, rfl, rfl, ?_, hsrc⟩
      · rw [hmap]
        rfl
      · exact fun hc => absurd hc (List.not_mem_nil _)
      · rw [hcur]
        exact hT.1
    · cases hfirst : nextToken st with
      | error e =>
        unfold tokenizeFuel at h
        rw [hfirst] at h
        exact Except.noConfusion h
      | ok o =>
        cases o with
        | none =>
          exfalso
          have hpe := nextToken_none hfirst
          cases hpt : st.prev_token with
          | none => rw [hpt] at hpe; exact Option.noConfusion hpe
          | some t => rw [hpt] at hpe; exact hP t hpt (Option.some.inj hpe)
        | some p =>
          obtain ⟨t, st'⟩ := p
          obtain ⟨ts1, hrec, hts⟩ := tokenizeFuel_step hfirst h
          obtain ⟨ty, st₁, hscan, hmk⟩ := nextToken_shape hfirst
          have master := scanNext_master hscan
          have mkf := make_token_fact2 hmk
          have htyne : ty ≠ .endmarker := fun he => hT (master.2.2.1 he).1
          have hP' : PrevTokOk st' := by
            intro t2 h2
            rw [mkf.2.2.2.2.2.2.2.1] at h2
            cases Option.some.inj h2
            rw [mkf.1]
            exact htyne
          obtain ⟨front, k, n, stT, e1, e2, e3, e4, e5, e6, e7, e8, e9, e10⟩ :=
            ih st' ts1 sf hP' hrec
          have hsrc' : st'.source = st.source := by
            rw [mkf.2.2.2.2.2.2.2.2.1]
            exact master.1.source_eq
          refine ⟨t.type :: front, k, n + 1, stT, ?_, ?_, e3, e4, ?_, e6, e7, ?_, ?_, ?_⟩
          · subst hts
            simp [e1]
          · intro hc
            rcases List.mem_cons.mp hc with hc1 | hc2
            · rw [mkf.1] at hc1
              exact htyne hc1.symm
            · exact e2 hc2
          · have hstep : stepN (n + 1) st = stepN n st' := by
              simp only [stepN]
              rw [hfirst, bind_ok_l]
            rw [hstep]
            exact e5
          · simp [e8]
          · rw [hsrc'] at e9
            exact e9
          · rw [e10, hsrc']

/-- C2: every successful run's token kinds are some ENDMARKER-free prefix,
then one DEDENT per entry of the indent stack at the pull where the
terminal state is reached, then exactly one ENDMARKER; the final state has
an empty indent stack and every further pull signals `StopIteration`. -/
theorem C2_endmarker_termination (src : Source) (fuel : Nat)
    (h : resOk (tokenize src fuel) = true) :
    ∃ front k n stT,
      (resTokens (tokenize src fuel)).map Token.type =
        front ++ List.replicate k .dedent ++ [.endmarker] ∧
      .endmarker ∉ front ∧
      (resState (tokenize src fuel)).indent_stack = [] ∧
      nextToken (resState (tokenize src fuel)) = .ok none ∧
      stepN n (initIter src) = .ok stT ∧ Terminal stT ∧
      stT.indent_stack.length = k ∧ n = front.length := by
  cases hres : tokenize src fuel with
  | error e =>
    rw [hres] at h
    exact Bool.noConfusion h
  | ok p =>
    obtain ⟨ts, sf⟩ := p
    have hP : PrevTokOk (initIter src) := fun t hc => Option.noConfusion hc
    obtain ⟨front, k, n, stT, e1, e2, e3, e4, e5, e6, e7, e8, _, _⟩ :=
      tokenize_shape_aux fuel (initIter src) ts sf hP hres
    exact ⟨front, k, n, stT, e1, e2, e3, e4, e5, e6, e7, e8⟩

theorem C2_endmarker_termination_witness :
    resOk (tokenize ([] : Source) 3) = true ∧
    (∃ front k n stT,
      (resTokens (tokenize ([] : Source) 3)).map Token.type =
        front ++ List.replicate k .dedent ++ [.endmarker] ∧
      .endmarker ∉ front ∧
      (resState (tokenize ([] : Source) 3)).indent_stack = [] ∧
      nextToken (resState (tokenize ([] : Source) 3)) = .ok none ∧
      stepN n (initIter ([] : Source)) = .ok stT ∧ Terminal stT ∧
      stT.indent_stack.length = k ∧ n = front.length) :=
  ⟨by decide, C2_endmarker_termination [] 3 (by decide)⟩

/-- C4: a NEWLINE/NL token is NL exactly when, at the pull that emitted
it, the bracket depth is positive, or the f-string state is
`in_fstring_expr`, or the line so far was all whitespace; consequently a
NEWLINE is emitted only at bracket depth zero outside f-string
expressions. -/
theorem C4_newline_kind {st : TokenIterator} {t : Token} {st' : TokenIterator}
    (h : nextToken st = .ok (some (t, st')))
    (hnl : t.type = .newline ∨ t.type = .nl) :
    (t.type = .nl ↔ (0 < st.bracket_level ∨ st.fstring_state = .in_fstring_expr ∨
      st.all_whitespace_on_this_line = true)) ∧
    (t.type = .newline → st.bracket_level = 0 ∧ st.fstring_state ≠ .in_fstring_expr) := by
  obtain ⟨ty, st₁, hscan, hmk⟩ := nextToken_shape h
  have mkf := make_token_fact2 hmk
  have master := scanNext_master hscan
  have hnl2 : ty = .newline ∨ ty = .nl := by
    rw [← mkf.1]
    exact hnl
  have hiff0 := master.2.2.2 hnl2
  have hiff : t.type = .nl ↔ (0 < st.bracket_level ∨ st.fstring_state = .in_fstring_expr ∨
      st.all_whitespace_on_this_line = true) := by
    rw [mkf.1]
    exact hiff0
  refine ⟨hiff, ?_⟩
  intro hnew
  have hne : ¬(0 < st.bracket_level ∨ st.fstring_state = .in_fstring_expr ∨
      st.all_whitespace_on_this_line = true) := by
    intro hcond
    have hnl3 := hiff.mpr hcond
    rw [hnew] at hnl3
    exact TokenType.noConfusion hnl3
  constructor
  · by_cases hb : st.bracket_level = 0
    · exact hb
    · exact absurd (Or.inl (Nat.pos_of_ne_zero hb)) hne
  · intro hf
    exact hne (Or.inr (Or.inl hf))

theorem C4_newline_kind_witness :
    ((Token.mk .nl 0 1 1 0 1 1).type = .nl ↔
      (0 < (initIter ['\n']).bracket_level ∨
        (initIter ['\n']).fstring_state = .in_fstring_expr ∨
        (initIter ['\n']).all_whitespace_on_this_line = true)) ∧
    ((Token.mk .nl 0 1 1 0 1 1).type = .newline →
      (initIter ['\n']).bracket_level = 0 ∧
      (initIter ['\n']).fstring_state ≠ .in_fstring_expr) :=
  @C4_newline_kind (initIter ['\n']) (Token.mk .nl 0 1 1 0 1 1) _ rfl (Or.inr rfl)

/-! ### Indent-stack invariant -/

theorem chainSubB_tail {a : Source} {l : List Source}
    (h : chainSubB (a :: l) = true) : chainSubB l = true := by
  cases l with
  | nil => rfl
  | cons b r =>
    unfold chainSubB at h
    rw [Bool.and_eq_true] at h
    exact h.2

theorem chainSubB_suffix :
    ∀ (pre l' : List Source), chainSubB (pre ++ l') = true → chainSubB l' = true := by
  intro pre
  induction pre with
  | nil => intro l' h; exact h
  | cons a pre' ih => intro l' h; exact ih l' (chainSubB_tail h)

theorem stackEv_chainSub {st st' : TokenIterator} (he : StackEv st st')
    (h : chainSubB st.indent_stack = true) : chainSubB st'.indent_stack = true := by
  rcases he with heq | ⟨N, hN, hchecks⟩ | hsuf
  · rw [heq]
    exact h
  · rw [hN]
    cases hstk : st.indent_stack with
    | nil => rfl
    | cons T rest =>
      obtain ⟨hlen, hin⟩ := hchecks T (show st.indent_stack.head? = some T by rw [hstk]; rfl)
      rw [hstk] at h
      unfold chainSubB
      simp [hlen, hin, h]
  · obtain ⟨pre, hpre⟩ := hsuf
    exact chainSubB_suffix pre _ (hpre ▸ h)

theorem stepN_stack :
    ∀ (n : Nat) (st : TokenIterator), chainSubB st.indent_stack = true →
      chainSubB (stepStack (stepN n st)) = true := by
  intro n
  induction n with
  | zero =>
    intro st h
    exact h
  | succ m ih =>
    intro st h
    cases hnt : nextToken st with
    | error e =>
      have hs : stepN (m + 1) st = .error e := by
        simp only [stepN]
        rw [hnt, bind_err_l]
      rw [hs]
      rfl
    | ok o =>
      cases o with
      | none =>
        have hs : stepN (m + 1) st = .ok st := by
          simp only [stepN]
          rw [hnt, bind_ok_l]
        rw [hs]
        exact h
      | some p =>
        obtain ⟨t, st'⟩ := p
        have hs : stepN (m + 1) st = stepN m st' := by
          simp only [stepN]
          rw [hnt, bind_ok_l]
        rw [hs]
        apply ih
        obtain ⟨ty, st₁, hscan, hmk⟩ := nextToken_shape hnt
        have master := scanNext_master hscan
        have mkf := make_token_fact2 hmk
        rw [mkf.2.2.2.2.2.2.2.2.2.2.1]
        exact stackEv_chainSub master.2.1 h

/-- C8 amended: the invariant the code actually maintains on the indent
stack after any number of pulls: top-down, each level is strictly longer
than, and contains as a contiguous substring (Python `in`, not a prefix
check), the level below it. -/
theorem C8_stack_substring_invariant (src : Source) (n : Nat) :
    chainSubB (stepStack (stepN n (initIter src))) = true :=
  stepN_stack n (initIter src) rfl

/-! ### Contiguity -/

theorem contig_aux :
    ∀ (fuel : Nat) (st : TokenIterator) (ts : List Token) (sf : TokenIterator),
      tokenizeFuel fuel st = .ok (ts, sf) →
      chainB contiguousAmended ts = true ∧
      (∀ t2, ts.head? = some t2 → t2.start_index = st.prev_index ∧
        t2.start_line = st.prev_line_number ∧ t2.start_col = st.prev_byte_offset) := by
  intro fuel
  induction fuel with
  | zero =>
    intro st ts sf h
    exact Except.noConfusion h
  | succ m ih =>
    intro st ts sf h
    cases hnt : nextToken st with
    | error e =>
      unfold tokenizeFuel at h
      rw [hnt] at h
      exact Except.noConfusion h
    | ok o =>
      cases o with
      | none =>
        obtain ⟨hts, _⟩ := tokenizeFuel_halt hnt h
        subst hts
        exact ⟨rfl, fun t2 h2 => Option.noConfusion h2⟩
      | some p =>
        obtain ⟨t, st'⟩ := p
        obtain ⟨ts1, hrec, hts⟩ := tokenizeFuel_step hnt h
        subst hts
        obtain ⟨ty, st₁, hscan, hmk⟩ := nextToken_shape hnt
        have master := scanNext_master hscan
        have mkf := make_token_fact2 hmk
        have lnk := make_token_link hmk
        obtain ⟨hchain1, hhead1⟩ := ih st' ts1 sf hrec
        constructor
        · cases hts1 : ts1 with
          | nil => rfl
          | cons t2 rest =>
            rw [hts1] at hchain1 hhead1
            unfold chainB
            rw [Bool.and_eq_true]
            refine ⟨?_, hchain1⟩
            obtain ⟨hs1, hs2, hs3⟩ := hhead1 t2 rfl
            unfold contiguousAmended
            rw [Bool.and_eq_true]
            constructor
            · simp [hs1, lnk.1]
            · by_cases hc : t.type = .newline ∨ t.type = .nl
              · rw [if_pos hc]
                rw [if_pos hc] at lnk
                obtain ⟨l1, l2⟩ := lnk.2
                simp [hs2, hs3, l1, l2]
              · rw [if_neg hc]
                rw [if_neg hc] at lnk
                obtain ⟨l1, l2⟩ := lnk.2
                simp [hs2, hs3, l1, l2]
        · intro t2 h2
          cases Option.some.inj h2
          refine ⟨?_, ?_, ?_⟩
          · rw [mkf.2.1]
            exact master.1.prev_index_eq
          · rw [mkf.2.2.2.1]
            exact master.1.prev_line_eq
          · rw [mkf.2.2.2.2.1]
            exact master.1.prev_off_eq

/-- C10 amended: byte indices tile the stream with no gaps or overlaps
and the first token starts at byte 0, line 1, column 0; lines and columns
tile as well except across a NEWLINE/NL token, after which the next token
starts at the following line, column 0 (the claim's unqualified line/col
contiguity is refuted by `C10_counterexample`). -/
theorem C10_contiguous_amended (src : Source) (fuel : Nat) :
    chainB contiguousAmended (resTokens (tokenize src fuel)) = true ∧
    headStartOk (resTokens (tokenize src fuel)) = true := by
  cases hres : tokenize src fuel with
  | error e => exact ⟨rfl, rfl⟩
  | ok p =>
    obtain ⟨ts, sf⟩ := p
    obtain ⟨hchain, hhead⟩ := contig_aux fuel (initIter src) ts sf hres
    constructor
    · exact hchain
    · cases hts : ts with
      | nil => rfl
      | cons t rest =>
        rw [hts] at hhead
        obtain ⟨h1, h2, h3⟩ := hhead t rfl
        simp [headStartOk, resTokens, h1, h2, h3, initIter]

/-! ### Round trip -/

theorem pySlice_self (s : Source) (a : Nat) : pySlice s a a = [] := by
  unfold pySlice
  rw [Nat.sub_self]
  rfl

theorem pySlice_append {s : Source} {a b c : Nat} (h1 : a ≤ b) (h2 : b ≤ c) :
    pySlice s a b ++ pySlice s b c = pySlice s a c := by
  unfold pySlice
  have hsum : c - a = (b - a) + (c - b) := by omega
  rw [hsum, List.take_add]
  congr 1
  have hd : a + (b - a) = b := by omega
  rw [List.drop_drop, hd]

theorem to_byte_slice_eq {src : Source} {t : Token}
    (hend : t.type = .endmarker → t.start_index = t.end_index) :
    to_byte_slice src t = pySlice src t.start_index t.end_index := by
  unfold to_byte_slice
  split
  · rename_i hc
    obtain ⟨_, hs, he⟩ := hc
    rw [hs, he]
    unfold pySlice
    rw [List.drop_length, List.take_nil]
  · split
    · rename_i hc
      obtain ⟨_, hs, he⟩ := hc
      rw [hs, he]
      exact (pySlice_self _ _).symm
    · split
      · rename_i hty
        rw [hend hty]
        exact (pySlice_self _ _).symm
      · rfl

theorem roundtrip_aux (src : Source) :
    ∀ (fuel : Nat) (st : TokenIterator) (ts : List Token) (sf : TokenIterator),
      tokenizeFuel fuel st = .ok (ts, sf) → st.source = src →
      st.prev_index = st.current_index →
      (ts.map (to_byte_slice src)).join = pySlice src st.prev_index sf.prev_index ∧
      sf.prev_index = sf.current_index ∧ st.prev_index ≤ sf.prev_index := by
  intro fuel
  induction fuel with
  | zero =>
    intro st ts sf h _ _
    exact Except.noConfusion h
  | succ m ih =>
    intro st ts sf h hsrc heq
    cases hnt : nextToken st with
    | error e =>
      unfold tokenizeFuel at h
      rw [hnt] at h
      exact Except.noConfusion h
    | ok o =>
      cases o with
      | none =>
        obtain ⟨hts, hsf⟩ := tokenizeFuel_halt hnt h
        subst hts hsf
        exact ⟨(pySlice_self _ _).symm, heq, Nat.le_refl _⟩
      | some p =>
        obtain ⟨t, st'⟩ := p
        obtain ⟨ts1, hrec, hts⟩ := tokenizeFuel_step hnt h
        subst hts
        obtain ⟨ty, st₁, hscan, hmk⟩ := nextToken_shape hnt
        have master := scanNext_master hscan
        have mkf := make_token_fact2 hmk
        have hsrc' : st'.source = src := by
          rw [mkf.2.2.2.2.2.2.2.2.1, master.1.source_eq, hsrc]
        have heq' : st'.prev_index = st'.current_index :=
          mkf.2.2.2.2.2.2.2.2.2.2.2.2.1
        obtain ⟨hjoin, heqf, hle⟩ := ih st' ts1 sf hrec hsrc' heq'
        have hstart : t.start_index = st.prev_index := by
          rw [mkf.2.1, master.1.prev_index_eq]
        have hendc : t.end_index = st₁.current_index := mkf.2.2.1
        have hprev' : st'.prev_index = t.end_index := (make_token_link hmk).1
        have hmono : st.prev_index ≤ t.end_index := by
          rw [hendc, heq]
          exact master.1.current_mono
        have hslice : to_byte_slice src t = pySlice src t.start_index t.end_index := by
          apply to_byte_slice_eq
          intro hty
          have hty2 : ty = .endmarker := by
            rw [← mkf.1]
            exact hty
          obtain ⟨_, hst1, _⟩ := master.2.2.1 hty2
          rw [hstart, hendc, hst1, heq]
        refine ⟨?_, heqf, Nat.le_trans hmono (by rw [← hprev']; exact hle)⟩
        simp only [List.join] at hjoin ⊢
        rw [List.map_cons, List.flatten_cons, hslice, hjoin, hstart, hprev']
        exact pySlice_append hmono (by rw [← hprev']; exact hle)

/-- C1: for every run of the tokenizer that completes without raising,
concatenating `Token.to_byte_slice` (which is `source[start:end]` with the
synthesized trailing newline, the end-of-file dedents and the endmarker
contributing nothing) over the emitted tokens reconstructs the source
exactly. -/
theorem C1_roundtrip (src : Source) (fuel : Nat)
    (h : resOk (tokenize src fuel) = true) :
    ((resTokens (tokenize src fuel)).map (to_byte_slice src)).join = src := by
  cases hres : tokenize src fuel with
  | error e =>
    rw [hres] at h
    exact Bool.noConfusion h
  | ok p =>
    obtain ⟨ts, sf⟩ := p
    obtain ⟨hjoin, heqf, _⟩ := roundtrip_aux src fuel (initIter src) ts sf hres rfl rfl
    have hP : PrevTokOk (initIter src) := fun t hc => Option.noConfusion hc
    obtain ⟨front, k, n, stT, _, _, _, _, _, _, _, _, hlen, _⟩ :=
      tokenize_shape_aux fuel (initIter src) ts sf hP hres
    show (ts.map (to_byte_slice src)).join = src
    rw [hjoin]
    unfold pySlice
    rw [show (initIter src).prev_index = 0 from rfl, List.drop_zero, Nat.sub_zero]
    exact List.take_of_length_le (by rw [heqf]; exact hlen)

theorem C1_roundtrip_witness :
    resOk (tokenize ['a'] 10) = true ∧
    ((resTokens (tokenize ['a'] 10)).map (to_byte_slice ['a'])).join = ['a'] :=
  ⟨by decide, C1_roundtrip ['a'] 10 (by decide)⟩

/-! ### The dedent pop loop and the backslash handler -/

theorem dedentLoop_error_iff :
    ∀ (stk : List Source), ∀ (counter nLen : Nat),
      dedentLoop stk counter nLen = .error .dedentDoesNotMatchAnyOuterIndent ↔
      ∃ pre top rest, stk = pre ++ top :: rest ∧
        (∀ p ∈ pre, nLen < p.length) ∧ top.length < nLen := by
  intro stk
  induction stk with
  | nil =>
    intro counter nLen
    constructor
    · intro h
      exact Except.noConfusion h
    · rintro ⟨pre, top, rest, he, _, _⟩
      cases pre with
      | nil => exact List.noConfusion he
      | cons a l => exact List.noConfusion he
  | cons a stk' ih =>
    intro counter nLen
    constructor
    · intro h
      unfold dedentLoop at h
      split at h
      · rename_i hlt
        exact ⟨[], a, stk', rfl, fun p hp => absurd hp (List.not_mem_nil p), hlt⟩
      · split at h
        · exact Except.noConfusion h
        · rename_i hlt heq
          have hgt : nLen < a.length := by omega
          obtain ⟨pre, top, rest, he, hall, htop⟩ := (ih (counter + 1) nLen).mp h
          refine ⟨a :: pre, top, rest, by rw [he, List.cons_append], ?_, htop⟩
          intro p hp
          rcases List.mem_cons.mp hp with h1 | h2
          · rw [h1]
            exact hgt
          · exact hall p h2
    · rintro ⟨pre, top, rest, he, hall, htop⟩
      unfold dedentLoop
      cases pre with
      | nil =>
        obtain ⟨h1, h2⟩ := List.cons.inj he
        rw [if_pos (show a.length < nLen by rw [h1]; exact htop)]
      | cons p pre' =>
        obtain ⟨h1, h2⟩ := List.cons.inj he
        have hgt : nLen < a.length := by
          rw [h1]
          exact hall p (List.mem_cons_self p pre')
        rw [if_neg (by omega), if_neg (by omega)]
        exact (ih (counter + 1) nLen).mpr
          ⟨pre', top, rest, h2, fun q hq => hall q (List.mem_cons_of_mem p hq), htop⟩

/-- C6 amended: the dedent pop loop raises exactly when, scanning the
stack top-down, every popped level is strictly longer than the new
indentation and the first level not longer is strictly shorter (so no
equal-length level is found before the stack would underflow); when the
stack simply drains, no failure is raised — the claim's example
`"if x:\n  pass\n x"` tokenizes successfully (`C6_counterexample`), while
`"if a:\n  if b:\n    c\n   d"`, whose three-space outdent lands strictly
between the two stacked levels, does raise
DedentDoesNotMatchAnyOuterIndent. -/
theorem C6_dedent_characterization :
    (∀ (stk : List Source) (counter nLen : Nat),
      dedentLoop stk counter nLen = .error .dedentDoesNotMatchAnyOuterIndent ↔
      ∃ pre top rest, stk = pre ++ top :: rest ∧
        (∀ p ∈ pre, nLen < p.length) ∧ top.length < nLen) ∧
    tokenize ['i','f',' ','a',':','\n',' ',' ','i','f',' ','b',':','\n',
      ' ',' ',' ',' ','c','\n',' ',' ',' ','d'] 40 =
      .error .dedentDoesNotMatchAnyOuterIndent :=
  ⟨dedentLoop_error_iff, by decide⟩

theorem backslashLoop_stuck (c : Char) (hw : is_whitespace c = false)
    (hnl : ¬ c = '\n') :
    backslashLoop (TokenIterator.innerFuel ((initIter ['\\', c]).advance))
      ((initIter ['\\', c]).advance) false = .ok ((initIter ['\\', c]).advance, false) := by
  show backslashLoop (3 + 1) ((initIter ['\\', c]).advance) false = _
  unfold backslashLoop
  rw [if_pos (show ((initIter ['\\', c]).advance).is_in_bounds = true by rfl)]
  simp only []
  rw [show ((initIter ['\\', c]).advance).charAtD = c by rfl]
  rw [hw]
  rw [if_neg Bool.false_ne_true]
  rw [if_neg (fun hc => hc.elim hnl
    (fun hc2 => absurd (show (2 : Nat) < 2 from hc2.2.1) (by decide)))]

theorem scanNextCore_backslash (c : Char) (hw : is_whitespace c = false)
    (hnl : ¬ c = '\n') :
    scanNextCore (initIter ['\\', c]) = .error .unexpectedCharacterAfterBackslash := by
  delta scanNextCore
  simp only []
  rw [show (initIter ['\\', c]).charAtD = '\\' by rfl]
  rw [show (is_newlineFn (initIter ['\\', c])).2 = initIter ['\\', c] by rfl]
  split
  · rename_i hc
    exact absurd (show ('\\' : Char) = '#' from hc) (by decide)
  · split
    · rename_i hc
      exact absurd (show (0 : Nat) < 0 from hc) (by decide)
    · split
      · rename_i hc
        exact absurd (show false = true from hc) (by decide)
      · split
        · split
          · rename_i hc
            exact absurd (show (initIter ['\\', c]).advance.is_in_bounds = true by rfl) hc
          · rw [backslashLoop_stuck c hw hnl, bind_ok_l]
            simp only []
            split
            · rfl
            · rename_i hc
              exact absurd Bool.false_ne_true hc
        · rename_i hc
          exact absurd rfl hc

theorem scanNext_backslash (c : Char) (hw : is_whitespace c = false)
    (hnl : ¬ c = '\n') :
    scanNext (initIter ['\\', c]) = .error .unexpectedCharacterAfterBackslash := by
  delta scanNext
  split
  · rename_i hc
    exact Option.noConfusion
      (show (none : Option TokenType) = some TokenType.endmarker from hc)
  · split
    · rename_i hc
      exact absurd (show (0 : Nat) = 2 from hc) (by decide)
    · split
      · rename_i hc
        exact absurd (show (2 : Nat) < 0 from hc) (by decide)
      · split
        · rename_i hc
          exact absurd rfl hc.1
        · exact scanNextCore_backslash c hw hnl

theorem tokenize_backslash (c : Char) (hw : is_whitespace c = false)
    (hnl : ¬ c = '\n') :
    tokenize ['\\', c] 10 = .error .unexpectedCharacterAfterBackslash := by
  have hnt : nextToken (initIter ['\\', c]) = .error .unexpectedCharacterAfterBackslash := by
    unfold nextToken
    rw [scanNext_backslash c hw hnl]
    rfl
  show tokenizeFuel (9 + 1) (initIter ['\\', c]) = _
  unfold tokenizeFuel
  rw [hnt, bind_err_l]

/-- C7 amended: a lone backslash at end of source raises UnexpectedEOF,
not UnexpectedCharacterAfterBackslash; over the sources `"\\" ++ [c]`,
UnexpectedCharacterAfterBackslash is raised exactly when the character
after the backslash is neither whitespace (space, tab, \x0b, \x0c) nor a
line feed. -/
theorem C7_backslash_characterization (c : Char) :
    tokenize ['\\'] 10 = .error .unexpectedEOF ∧
    (tokenize ['\\', c] 10 = .error .unexpectedCharacterAfterBackslash ↔
      ¬(is_whitespace c = true ∨ c = '\n')) := by
  constructor
  · decide
  · constructor
    · intro herr hor
      rcases hor with hwt | hn
      · unfold is_whitespace at hwt
        rw [Bool.or_eq_true, Bool.or_eq_true, Bool.or_eq_true] at hwt
        rcases hwt with ((h1 | h1) | h1) | h1 <;>
          rw [of_decide_eq_true h1] at herr <;> exact absurd herr (by decide)
      · rw [hn] at herr
        exact absurd herr (by decide)
    · intro hnot
      have hw : is_whitespace c = false := by
        rcases Bool.eq_false_or_eq_true (is_whitespace c) with hb | hb <;>
          first
            | exact hb
            | exact absurd (Or.inl hb) hnot
      exact tokenize_backslash c hw (fun he => hnot (Or.inr he))

end Pytok
